import Mathlib

/-!
# Verification of the go-rate request rate limiter

A shallow embedding of the `rate` package: the `Limit` descriptor and its
validation (src/limit.go), the quota counter (modelled from the spec, the
quota source file is absent from the sources), the composite key builder
(src/join.go), the bucketed expirable quota store (src/expirable_store.go),
the limit policy header builder (src/policy.go) and the `Allow` decision
of the limiter facade (src/limiter.go).

Machine integers are modelled as `Nat`/`Int` with explicit reductions
modulo `2^64` where Go `uint64` arithmetic could overflow; Go `time.Time`
and `time.Duration` values are `Int` nanoseconds.  Go maps are association
lists; Go pointers to pooled entries are indices (`eid`) into an explicit
heap, so pointer identity is index equality.  The unspecified iteration
order of a Go `map` range loop is an explicit order parameter ranging over
the permutations of the key set.
-/

namespace GoRate

/-- The size of the Go `uint64` value space. -/
def U64 : Nat := 2 ^ 64

/-! ## Limit and LimitPer (src/limit.go)

`LimitPer` is a Go string type; its three valid values are the constants
below. -/

def LimitPerTotal : String := "total"

def LimitPerIPAddress : String := "ip-address"

def LimitPerAuthToken : String := "auth-token"

/-- `LimitPer.IsValid` from src/limit.go: the per value must be one of the
three enumerated dimensions. -/
def limitPerIsValid (p : String) : Bool :=
  p = LimitPerTotal || p = LimitPerIPAddress || p = LimitPerAuthToken

/-- The `Limit` struct of src/limit.go: resource, action, per, the
`Unlimited` tag, `MaxRequests uint64` and `Period time.Duration`
(int64 nanoseconds). -/
structure Limit where
  resource : String
  action : String
  per : String
  unlimited : Bool
  maxRequests : Nat
  period : Int
deriving DecidableEq

instance : Inhabited Limit := ⟨⟨"", "", "", false, 0, 0⟩⟩

/-- `Limit.IsValid` from src/limit.go: a limit is valid iff its per is one
of the three dimensions and it either carries the unlimited tag with zero
counts, or is limited with `MaxRequests > 0` and `Period > 0`. -/
def Limit.IsValid (l : Limit) : Bool :=
  if !(limitPerIsValid l.per) then false
  else if l.unlimited && (l.maxRequests != 0 || l.period != 0) then false
  else if !l.unlimited && (l.maxRequests == 0 || l.period ≤ 0) then false
  else true

/-! ## Composite keys (src/join.go)

`join` (tested as `getKey` in src/join_test.go) colon-joins its parts. -/

/-- `getKey`/`join` from src/join.go: writes each part, inserting `":"`
between consecutive parts. -/
def getKey (parts : List String) : String :=
  String.intercalate ":" parts

/-! ## Quota

The quota source file is not among the sources; only its tests
(src/quota_test.go) and its callers are. -/

/-- Modelled from the spec: the `Quota` struct (quota source file absent
from src/): a reference to the governing limit, a `used uint64` counter and
a wall-clock expiration instant. -/
structure Quota where
  limit : Limit
  used : Nat
  expiresAt : Int
deriving DecidableEq

instance : Inhabited Quota := ⟨⟨default, 0, 0⟩⟩

/-- Modelled from the spec: `Quota.reset` (quota source file absent from
src/): given a limit, `used ← 0` and `expires_at ← now + period`. -/
def Quota.reset (_q : Quota) (now : Int) (l : Limit) : Quota :=
  { limit := l, used := 0, expiresAt := now + l.period }

/-- Modelled from the spec: `Quota.Remaining` (quota source file absent
from src/): `max(0, max_requests − used)` as saturating `uint64`
subtraction, guarded exactly as the pinned table of
src/quota_test.go `TestQuotaRemaining` requires (`used > max_requests`
yields 0). -/
def Quota.Remaining (q : Quota) : Nat :=
  if q.limit.maxRequests < q.used then 0
  else (q.limit.maxRequests - q.used) % U64

/-- Modelled from the spec: `Quota.Expired` (quota source file absent from
src/): expired iff `now ≥ expires_at`. -/
def Quota.Expired (q : Quota) (now : Int) : Bool :=
  q.expiresAt ≤ now

/-- Modelled from the spec: `Quota.Consume` (quota source file absent from
src/): `used += 1` in `uint64` arithmetic. -/
def Quota.Consume (q : Quota) : Quota :=
  { q with used := (q.used + 1) % U64 }

/-! ## Claim C2: Remaining is exact saturating subtraction over uint64 -/

/-- C2: for every quota governed by a Limited limit, `Remaining()` equals
`max_requests − used` when `used ≤ max_requests` and `0` otherwise, over
exact unsigned 64-bit integers, for all values including those at
`2^64 − 1`; it never goes negative (the value is a natural number equal to
the integer `max 0 (max_requests − used)`) and never wraps
(`Remaining ≤ max_requests < 2^64`). -/
theorem C2_remaining_saturating (q : Quota)
    (_hused : q.used < U64) (hmax : q.limit.maxRequests < U64) :
    ((q.Remaining : Int) = max 0 ((q.limit.maxRequests : Int) - (q.used : Int))) ∧
    q.Remaining ≤ q.limit.maxRequests ∧ q.Remaining < U64 := by
  unfold Quota.Remaining
  rcases Nat.lt_or_ge q.limit.maxRequests q.used with h | h
  · rw [if_pos h]
    refine ⟨?_, Nat.zero_le _, by unfold U64; positivity⟩
    omega
  · rw [if_neg (by omega)]
    have hsub : q.limit.maxRequests - q.used < U64 := by omega
    rw [Nat.mod_eq_of_lt hsub]
    refine ⟨?_, by omega, by omega⟩
    omega

/-- The quota of the `maxMaxRequests` row of `TestQuotaRemaining`
(`max_requests = 2^64 − 1`, `used = 2^64 − 2`, remaining `1`). -/
def c2TestQuota : Quota :=
  ⟨⟨"resource", "action", "total", false, U64 - 1, 60000000000⟩, U64 - 2, 0⟩

/-- Witness for C2 at the `maxMaxRequests` row of `TestQuotaRemaining`. -/
theorem C2_remaining_saturating_witness :
    (c2TestQuota.used < U64 ∧ c2TestQuota.limit.maxRequests < U64) ∧
    ((c2TestQuota.Remaining : Int) =
      max 0 ((c2TestQuota.limit.maxRequests : Int) - (c2TestQuota.used : Int))) :=
  ⟨⟨by decide, by decide⟩,
    (C2_remaining_saturating c2TestQuota (by decide) (by decide)).1⟩

/-! ## Association lists

Go `map[string]V` values are modelled as association lists with no
duplicate keys. -/

/-- Lookup in an association list (Go map read `m[k]`). -/
def alookup {α : Type} : List (String × α) → String → Option α
  | [], _ => none
  | (k', v) :: t, k => if k' = k then some v else alookup t k

/-- Insert-or-replace in an association list (Go map write `m[k] = v`). -/
def ainsert {α : Type} : List (String × α) → String → α → List (String × α)
  | [], k, v => [(k, v)]
  | (k', v') :: t, k, v =>
    if k' = k then (k, v) :: t else (k', v') :: ainsert t k v

/-- Removal from an association list (Go map `delete(m, k)`). -/
def aerase {α : Type} : List (String × α) → String → List (String × α)
  | [], _ => []
  | (k', v') :: t, k => if k' = k then aerase t k else (k', v') :: aerase t k

/-- The keys of an association list. -/
def akeys {α : Type} (l : List (String × α)) : List String :=
  l.map Prod.fst

/-! ## The expirable store (src/expirable_store.go)

Entries live in a heap indexed by `eid`; `items` and the per-bucket entry
maps store `eid`s, so that the same entry object referenced from `items`
and from a bucket (a Go pointer alias) is the same heap slot.  The free
pool is a stack of `eid`s and `pool.Get` either pops it or allocates a
fresh heap slot (`sync.Pool.New`). -/

/-- The `entry` struct of src/expirable_store.go (`key`, `value *Quota`,
`bucket int`). -/
structure EntryData where
  key : String
  value : Quota
  bucket : Nat
deriving DecidableEq

instance : Inhabited EntryData := ⟨⟨"", default, 0⟩⟩

/-- The `bucket` struct of src/expirable_store.go. -/
structure Bucket where
  entries : List (String × Nat)
  expiresAt : Int
deriving DecidableEq

instance : Inhabited Bucket := ⟨⟨[], 0⟩⟩

/-- The `expirableStore` struct of src/expirable_store.go.  The cancellable
context is modelled by the `stopped` flag; `heap` holds every entry object
ever allocated and `pool` the `eid`s currently in the free pool. -/
structure ExpirableStore where
  maxSize : Nat
  items : List (String × Nat)
  buckets : List Bucket
  bucketTTL : Int
  numberBuckets : Nat
  nextBucketToExpire : Nat
  pool : List Nat
  heap : List EntryData
  stopped : Bool
deriving DecidableEq

instance : Inhabited ExpirableStore :=
  ⟨⟨0, [], [], 0, 0, 0, [], [], false⟩⟩

/-- Dereference an entry pointer. -/
def ExpirableStore.entryAt (s : ExpirableStore) (eid : Nat) : EntryData :=
  s.heap.getD eid default

/-- Write through an entry pointer. -/
def ExpirableStore.heapSet (s : ExpirableStore) (eid : Nat) (e : EntryData) :
    ExpirableStore :=
  { s with heap := s.heap.set eid e }

/-- The bucket at an index. -/
def ExpirableStore.bucketAt (s : ExpirableStore) (i : Nat) : Bucket :=
  s.buckets.getD i default

/-- Errors surfaced by the store and the limiter. -/
inductive RateErr where
  | invalidMaxSize
  | invalidParameter
  | invalidNumberBuckets
  | limiterFull (retryIn : Int)
  | stopped
  | limitPolicyNotFound
  | limitNotFound
deriving DecidableEq

/-- The result of `newExpirableStore`: a store, a typed error, or a Go
runtime panic (integer division by zero). -/
inductive NewStoreResult where
  | ok (s : ExpirableStore)
  | err (e : RateErr)
  | panicDivideByZero
deriving DecidableEq

/-- `newExpirableStore` from src/expirable_store.go: validates
`maxSize > 0`, `maxEntryTTL > 0` and `numberBuckets > 0` (in that order),
then computes `bucketTTL = maxEntryTTL / (numberBuckets − 1)` — a Go
`int64` division that panics when `numberBuckets − 1 = 0` — and
pre-allocates `numberBuckets` empty buckets. -/
def newExpirableStore (maxSize maxEntryTTL numberBuckets : Int) :
    NewStoreResult :=
  if maxSize ≤ 0 then .err .invalidMaxSize
  else if maxEntryTTL ≤ 0 then .err .invalidParameter
  else if numberBuckets ≤ 0 then .err .invalidNumberBuckets
  else if numberBuckets - 1 = 0 then .panicDivideByZero
  else .ok
    { maxSize := maxSize.toNat
      items := []
      buckets := List.replicate numberBuckets.toNat ⟨[], 0⟩
      bucketTTL := maxEntryTTL.tdiv (numberBuckets - 1)
      numberBuckets := numberBuckets.toNat
      nextBucketToExpire := 0
      pool := []
      heap := []
      stopped := false }

/-- `shutdown` from src/expirable_store.go: cancels the context. -/
def ExpirableStore.shutdown (s : ExpirableStore) : ExpirableStore :=
  { s with stopped := true }

/-- The bucket index computed by `addToBucket`:
`(int(period / bucketTTL) + nextBucketToExpire) % numberBuckets`, with
Go's truncated `int64` division and remainder.  (For a negative index Go
would panic on the slice access; the theorems below only use non-negative
periods, where the index is the value of this function.) -/
def goBucketIndex (period bucketTTL : Int) (next n : Nat) : Nat :=
  (((period.tdiv bucketTTL) + (next : Int)).tmod (n : Int)).toNat

/-- `addToBucket` from src/expirable_store.go: records the bucket index in
the entry, inserts the entry into that bucket's map, and raises the
bucket's `expiresAt` to the quota's expiration if it is later. -/
def ExpirableStore.addToBucket (s : ExpirableStore) (eid : Nat) :
    ExpirableStore :=
  let e := s.entryAt eid
  let b := goBucketIndex e.value.limit.period s.bucketTTL
    s.nextBucketToExpire s.numberBuckets
  let s' := s.heapSet eid { e with bucket := b }
  let bk := s'.bucketAt b
  let bk' := { bk with entries := ainsert bk.entries e.key eid }
  let bk'' := if bk'.expiresAt < e.value.expiresAt then
      { bk' with expiresAt := e.value.expiresAt } else bk'
  { s' with buckets := s'.buckets.set b bk'' }

/-- `removeFromBucket` from src/expirable_store.go: deletes the entry's key
from the bucket recorded in the entry. -/
def ExpirableStore.removeFromBucket (s : ExpirableStore) (eid : Nat) :
    ExpirableStore :=
  let e := s.entryAt eid
  let bk := s.bucketAt e.bucket
  { s with buckets :=
      s.buckets.set e.bucket { bk with entries := aerase bk.entries e.key } }

/-- `removeEntry` from src/expirable_store.go: deletes from `items`,
deletes from the entry's bucket, and returns the entry to the free pool. -/
def ExpirableStore.removeEntry (s : ExpirableStore) (eid : Nat) :
    ExpirableStore :=
  let e := s.entryAt eid
  let s' := { s with items := aerase s.items e.key }
  let s'' := s'.removeFromBucket eid
  { s'' with pool := eid :: s''.pool }

/-- `add` from src/expirable_store.go: fails `ErrLimiterFull` when the key
is new and the store is at capacity (`RetryIn = bucketTTL`, modelled from
the spec: the src snapshot's `return ErrLimiterFull` predates the struct
error of src/errors.go, whose `RetryIn` the tests pin to `bucket_ttl`);
otherwise inserts into `items` and buckets the entry. -/
def ExpirableStore.add (s : ExpirableStore) (eid : Nat) :
    Except RateErr ExpirableStore :=
  let e := s.entryAt eid
  if (alookup s.items e.key) = none ∧ s.maxSize ≤ s.items.length then
    .error (.limiterFull s.bucketTTL)
  else
    let s' := { s with items := ainsert s.items e.key eid }
    .ok (s'.addToBucket eid)

/-- `pool.Get` of the free pool: pops a pooled entry, or allocates a fresh
zero entry (`sync.Pool.New`: `&entry{value: &Quota{}}`). -/
def ExpirableStore.poolGet (s : ExpirableStore) : Nat × ExpirableStore :=
  match s.pool with
  | eid :: rest => (eid, { s with pool := rest })
  | [] => (s.heap.length, { s with heap := s.heap ++ [default] })

/-- `fetch` from src/expirable_store.go: fails `ErrStopped` after shutdown;
computes the composite key; for a new key takes a pooled entry, resets its
quota and `add`s it (returning the entry to the pool when `add` fails);
for an existing expired quota re-buckets after a reset; otherwise returns
the stored quota unchanged.  Returns the entry pointer (`eid`) whose
`value` field is the returned `*Quota`, together with the store. -/
def ExpirableStore.fetch (s : ExpirableStore) (now : Int) (id : String)
    (limit : Limit) : Except RateErr Nat × ExpirableStore :=
  if s.stopped then (.error .stopped, s)
  else
    let key := getKey [limit.resource, limit.action, limit.per, id]
    match alookup s.items key with
    | none =>
      let (eid, s1) := s.poolGet
      let e := s1.entryAt eid
      let s2 := s1.heapSet eid
        { e with key := key, value := e.value.reset now limit }
      match s2.add eid with
      | .error err => (.error err, { s2 with pool := eid :: s2.pool })
      | .ok s3 => (.ok eid, s3)
    | some eid =>
      if (s.entryAt eid).value.Expired now then
        let s1 := s.removeFromBucket eid
        let e := s1.entryAt eid
        let s2 := s1.heapSet eid { e with value := e.value.reset now limit }
        (.ok eid, s2.addToBucket eid)
      else (.ok eid, s)

/-- One reclamation sweep, `emptyExpiredBucket` from
src/expirable_store.go: advances `nextBucketToExpire` and removes every
entry of the expired bucket (the wait for a bucket that has not yet
expired only delays the removal in time and does not change the state
effect). -/
def ExpirableStore.emptyExpiredBucket (s : ExpirableStore) : ExpirableStore :=
  let toExpire := s.nextBucketToExpire
  let s' := { s with
    nextBucketToExpire := (s.nextBucketToExpire + 1) % s.numberBuckets }
  ((s'.bucketAt toExpire).entries).foldl
    (fun acc p => acc.removeEntry p.2) s'

/-! ## Claim C10: one bucket passes validation then divides by zero -/

/-- C10: for `number_buckets = 1` and any valid `max_size > 0` and
`max_entry_ttl > 0`, store construction passes its parameter validation
(which rejects only `number_buckets ≤ 0`) and then evaluates
`bucket_ttl = max_entry_ttl / (number_buckets − 1)`, an integer division
by zero, so construction panics rather than returning a working store or a
typed error. -/
theorem C10_one_bucket_panics (maxSize maxEntryTTL : Int)
    (hsize : 0 < maxSize) (httl : 0 < maxEntryTTL) :
    newExpirableStore maxSize maxEntryTTL 1 = .panicDivideByZero := by
  unfold newExpirableStore
  rw [if_neg (by omega), if_neg (by omega), if_neg (by omega), if_pos (by omega)]

/-- Witness for C10 at `max_size = 5`, `max_entry_ttl = 1min`. -/
theorem C10_one_bucket_panics_witness :
    ((0 : Int) < 5 ∧ (0 : Int) < 60000000000) ∧
    newExpirableStore 5 60000000000 1 = .panicDivideByZero :=
  ⟨⟨by decide, by decide⟩, C10_one_bucket_panics 5 60000000000 (by decide) (by decide)⟩

/-! ## Limit policy header (src/policy.go)

src/policy.go belongs to the snapshot in which `Limit` is a tagged sum of
`Limited` and `Unlimited`; the policy's `m map[LimitPer]Limit` is an
association list from per values to such limits. -/

namespace V2

/-- The `Limit` interface of the src/policy.go snapshot with its two
implementations `*Limited` and `*Unlimited`. -/
inductive Limit where
  | Limited (resource action per : String) (maxRequests : Nat) (period : Int)
  | Unlimited (resource action per : String)
deriving DecidableEq

end V2

/-- `requiredLimitPer` from src/policy.go. -/
def requiredLimitPer : List String :=
  [LimitPerTotal, LimitPerIPAddress, LimitPerAuthToken]

/-- Go `%q` on a string needing no escapes (the three dimension tags
contain no quotes, backslashes or control characters). -/
def goQuote (s : String) : String :=
  "\"" ++ s ++ "\""

/-! ### IEEE-754 binary64 seconds

`buildStr` renders `uint64(ll.Period.Seconds())`.  Go's
`time.Duration.Seconds` is `float64(sec) + float64(nsec)/1e9` with
`sec := d / Second` and `nsec := d % Second` (truncating integer
division), so the count of seconds passes through binary64 floating
point with round-to-nearest, ties-to-even — and is *not* always the
period's whole-second count.  The model computes over exact rationals: a
finite binary64 value denotes a rational, and `roundF` is the rounding
function.  Overflow and subnormals are unreachable here (every
intermediate is `0` or has magnitude in `[1e-9, 2^64)`). -/

/-- Fuelled floor base-2 logarithm. -/
def log2Aux : Nat → Nat → Nat
  | 0, _ => 0
  | fuel+1, n => if n ≤ 1 then 0 else log2Aux fuel (n / 2) + 1

/-- `⌊log₂ n⌋` for `n > 0` (zero at zero). -/
def nlog2 (n : Nat) : Nat := log2Aux n n

/-- `2^e` as a rational, for an integer exponent. -/
def pow2 (e : Int) : ℚ :=
  if 0 ≤ e then ((2 ^ e.toNat : Nat) : ℚ) else ((2 ^ (-e).toNat : Nat) : ℚ)⁻¹

/-- The binary exponent of a positive rational: the `e` with
`2^e ≤ q < 2^(e+1)`, found from the numerator's and denominator's
`nlog2` with a one-step correction. -/
def qexp (q : ℚ) : Int :=
  if pow2 ((nlog2 q.num.toNat : Int) - (nlog2 q.den : Int) + 1) ≤ q then
    (nlog2 q.num.toNat : Int) - (nlog2 q.den : Int) + 1
  else if q < pow2 ((nlog2 q.num.toNat : Int) - (nlog2 q.den : Int)) then
    (nlog2 q.num.toNat : Int) - (nlog2 q.den : Int) - 1
  else (nlog2 q.num.toNat : Int) - (nlog2 q.den : Int)

/-- Round a rational to an integer, half to even. -/
def rhe (s : ℚ) : Int :=
  if s - ⌊s⌋ < 1 / 2 then ⌊s⌋
  else if (1 : ℚ) / 2 < s - ⌊s⌋ then ⌊s⌋ + 1
  else if ⌊s⌋ % 2 = 0 then ⌊s⌋ else ⌊s⌋ + 1

/-- The binary64 rounding of a rational: round the significand to 53 bits,
nearest, ties to even (no overflow or subnormal handling — unreachable for
the seconds computation). -/
def roundF (q : ℚ) : ℚ :=
  if q = 0 then 0
  else if q < 0 then
    -((rhe ((-q) * pow2 (52 - qexp (-q))) : ℚ) * pow2 (qexp (-q) - 52))
  else (rhe (q * pow2 (52 - qexp q)) : ℚ) * pow2 (qexp q - 52)

/-- Go's `d.Seconds()` in exact binary64 semantics:
`float64(d/1e9) + float64(d%1e9)/1e9`, every operation rounded to
nearest-even; the literal `1e9` is exactly representable, and
`float64(nsec)` with `0 ≤ nsec < 1e9` is exact. -/
def goSeconds (d : Int) : ℚ :=
  roundF (roundF ((d.tdiv 1000000000 : Int) : ℚ) +
    roundF (roundF ((d.tmod 1000000000 : Int) : ℚ) / 1000000000))

/-- Go's `uint64(x)` of the non-negative float `x`: truncation toward
zero (negative periods, invalid in a limit, clamp to zero here). -/
def goSecondsW (d : Int) : Nat := (⌊goSeconds d⌋).toNat

/-- One element of the slice built by `buildStr`:
`fmt.Sprintf("%d;w=%d;comment=%q", ll.MaxRequests,
uint64(ll.Period.Seconds()), ll.Per.String())`, the seconds count
computed in binary64 as Go does. -/
def limitEntryStr (maxRequests : Nat) (period : Int) (per : String) : String :=
  toString maxRequests ++ ";w=" ++ toString (goSecondsW period) ++
    ";comment=" ++ goQuote per

/-- `buildStr` from src/policy.go: walks `requiredLimitPer` in order,
keeps only the `*Limited` entries of `p.m`, renders each, and joins with
`", "`. -/
def buildStr (m : List (String × V2.Limit)) : String :=
  String.intercalate ", "
    (requiredLimitPer.filterMap fun per =>
      match alookup m per with
      | some (.Limited _ _ p maxR period) => some (limitEntryStr maxR period p)
      | _ => none)

/-- The header value as the spec words it: the comma-plus-space-joined
renderings of exactly the Limited limits, each rendered as
`<max_requests>;w=<period in whole seconds>;comment="<per>"`, listed in
the fixed order total, ip, auth_token, Unlimited omitted. -/
def specPolicyHeader (m : List (String × V2.Limit)) : String :=
  String.intercalate ", "
    ([LimitPerTotal, LimitPerIPAddress, LimitPerAuthToken].filterMap fun dim =>
      match alookup m dim with
      | some (.Limited _ _ tag maxR period) =>
        some (toString maxR ++ ";w=" ++ toString (period.toNat / 1000000000) ++
          ";comment=" ++ "\"" ++ tag ++ "\"")
      | _ => none)

theorem log2Aux_spec : ∀ (fuel n : Nat), 0 < n → n ≤ fuel →
    2 ^ log2Aux fuel n ≤ n ∧ n < 2 ^ (log2Aux fuel n + 1)
  | 0, n => by
    intro h0 hf
    omega
  | fuel+1, n => by
    intro h0 hf
    by_cases h1 : n ≤ 1
    · have hn1 : n = 1 := by omega
      subst hn1
      have hb : log2Aux (fuel+1) 1 = 0 := by simp [log2Aux]
      rw [hb]
      norm_num
    · have hb : log2Aux (fuel+1) n =
          if n ≤ 1 then 0 else log2Aux fuel (n / 2) + 1 := rfl
      rw [hb, if_neg h1]
      have hn2 : 0 < n / 2 := by omega
      have hf2 : n / 2 ≤ fuel := by omega
      obtain ⟨hlo, hhi⟩ := log2Aux_spec fuel (n / 2) hn2 hf2
      have hdm := Nat.div_add_mod n 2
      constructor
      · rw [pow_succ]
        omega
      · rw [pow_succ]
        omega

theorem nlog2_spec (n : Nat) (h0 : 0 < n) :
    2 ^ nlog2 n ≤ n ∧ n < 2 ^ (nlog2 n + 1) :=
  log2Aux_spec n n h0 (le_refl n)

/-- Rounding an integer to an integer is the identity. -/
theorem rhe_intCast (m : Int) : rhe (m : ℚ) = m := by
  unfold rhe
  rw [Int.floor_intCast]
  norm_num

theorem qexp_natCast (n : Nat) (h0 : 0 < n) :
    qexp ((n : ℚ)) = (nlog2 n : Int) := by
  obtain ⟨hlo, hhi⟩ := nlog2_spec n h0
  have hnum : ((n : ℚ)).num.toNat = n := by
    rw [Rat.num_natCast, Int.toNat_natCast]
  have hden : ((n : ℚ)).den = 1 := Rat.den_natCast n
  unfold qexp
  rw [hnum, hden]
  have hden1 : nlog2 1 = 0 := rfl
  rw [hden1]
  simp only [Nat.cast_zero, sub_zero]
  have hc1 : ¬ pow2 ((nlog2 n : Int) + 1) ≤ (n : ℚ) := by
    unfold pow2
    rw [if_pos (by omega)]
    have ht : ((nlog2 n : Int) + 1).toNat = nlog2 n + 1 := by omega
    rw [ht]
    exact not_le.mpr (by exact_mod_cast hhi)
  have hc2 : ¬ (n : ℚ) < pow2 ((nlog2 n : Int)) := by
    unfold pow2
    rw [if_pos (by omega), Int.toNat_natCast]
    exact not_lt.mpr (by exact_mod_cast hlo)
  rw [if_neg hc1, if_neg hc2]

/-- Binary64 represents every natural number below `2^53` exactly. -/
theorem roundF_natCast (n : Nat) (h : n < 2 ^ 53) : roundF ((n : ℚ)) = n := by
  rcases Nat.eq_zero_or_pos n with rfl | h0
  · simp [roundF]
  · have hne0 : ((n : ℚ)) ≠ 0 := Nat.cast_ne_zero.mpr (by omega)
    have hnneg : ¬ ((n : ℚ)) < 0 := not_lt.mpr (Nat.cast_nonneg n)
    unfold roundF
    rw [if_neg hne0, if_neg hnneg, qexp_natCast n h0]
    have hL : nlog2 n ≤ 52 := by
      by_contra hc
      push_neg at hc
      have h1 := (nlog2_spec n h0).1
      have h2 : (2 : Nat) ^ 53 ≤ 2 ^ nlog2 n :=
        Nat.pow_le_pow_right (by norm_num) (by omega)
      omega
    have hp : pow2 (52 - (nlog2 n : Int)) =
        ((2 ^ (52 - nlog2 n) : Nat) : ℚ) := by
      unfold pow2
      rw [if_pos (by omega)]
      have ht : ((52 : Int) - (nlog2 n : Int)).toNat = 52 - nlog2 n := by
        omega
      rw [ht]
    have hq : pow2 ((nlog2 n : Int) - 52) =
        ((2 ^ (52 - nlog2 n) : Nat) : ℚ)⁻¹ := by
      unfold pow2
      by_cases hz : (0 : Int) ≤ (nlog2 n : Int) - 52
      · have h52 : nlog2 n = 52 := by omega
        rw [if_pos hz]
        have ht : ((nlog2 n : Int) - 52).toNat = 0 := by omega
        rw [ht, h52]
        norm_num
      · rw [if_neg hz]
        have ht : (-((nlog2 n : Int) - 52)).toNat = 52 - nlog2 n := by omega
        rw [ht]
    rw [hp, hq]
    have hmul : (n : ℚ) * ((2 ^ (52 - nlog2 n) : Nat) : ℚ) =
        (((n * 2 ^ (52 - nlog2 n) : Nat) : Int) : ℚ) := by
      push_cast
      ring
    rw [hmul, rhe_intCast]
    have hne : ((2 ^ (52 - nlog2 n) : Nat) : ℚ) ≠ 0 := by positivity
    push_cast
    field_simp

theorem roundF_zero : roundF 0 = 0 := by
  simp [roundF]

/-- The binary64 seconds computation is exact on whole-second periods
below `2^53` seconds: no rounding step moves the value. -/
theorem goSeconds_whole (sec : Nat) (h : sec < 2 ^ 53) :
    goSeconds ((sec : Int) * 1000000000) = (sec : ℚ) := by
  unfold goSeconds
  rw [Int.mul_tdiv_cancel _ (by norm_num), Int.mul_tmod_left]
  have hc : (((sec : Int) : ℚ)) = ((sec : Nat) : ℚ) := by push_cast; ring
  have hz : (((0 : Int) : ℚ)) = (0 : ℚ) := by norm_num
  rw [hc, roundF_natCast sec h, hz, roundF_zero, zero_div, roundF_zero,
    add_zero, roundF_natCast sec h]

theorem goSecondsW_whole (sec : Nat) (h : sec < 2 ^ 53) :
    goSecondsW ((sec : Int) * 1000000000) = sec := by
  unfold goSecondsW
  rw [goSeconds_whole sec h, Int.floor_natCast, Int.toNat_natCast]

/-- A rendered limit entry equals its spec-worded rendering (the period's
whole-second count) when the period is a whole number of seconds below
`2^53` seconds, where the binary64 computation is exact. -/
theorem limitEntryStr_eq_spec (maxR : Nat) (sec : Nat) (p : String)
    (h : sec < 2 ^ 53) :
    limitEntryStr maxR ((sec : Int) * 1000000000) p =
      toString maxR ++ ";w=" ++
        toString (((sec : Int) * 1000000000).toNat / 1000000000) ++
        ";comment=" ++ "\"" ++ p ++ "\"" := by
  unfold limitEntryStr goQuote
  rw [goSecondsW_whole sec h]
  have h1 : ((sec : Int) * 1000000000).toNat / 1000000000 = sec := by omega
  rw [h1]
  simp only [String.append_assoc]

/-- A rendered limit entry is a nonempty string. -/
theorem limitEntryStr_length_pos (maxR : Nat) (period : Int) (p : String) :
    0 < (limitEntryStr maxR period p).length := by
  unfold limitEntryStr goQuote
  have h3 : (";w=" : String).length = 3 := by decide
  simp only [String.length_append, h3]
  omega

/-- The running accumulator of `String.intercalate` never shrinks. -/
theorem intercalate_go_length_le (s : String) :
    ∀ (t : List String) (a : String),
      a.length ≤ (String.intercalate.go a s t).length
  | [], _ => le_refl _
  | b :: t, a => by
    have h1 : a.length ≤ (a ++ s ++ b).length := by
      simp only [String.length_append]
      omega
    have h2 := intercalate_go_length_le s t (a ++ s ++ b)
    calc a.length ≤ (a ++ s ++ b).length := h1
      _ ≤ _ := h2

/-- Joining a nonempty list of nonempty strings is nonempty. -/
theorem intercalate_ne_empty (parts : List String) (hne : parts ≠ [])
    (hall : ∀ x ∈ parts, 0 < x.length) :
    String.intercalate ", " parts ≠ "" := by
  cases parts with
  | nil => exact absurd rfl hne
  | cons a t =>
    intro hcontra
    have hlen : 0 < (String.intercalate ", " (a :: t)).length := by
      have ha : 0 < a.length := hall a (List.mem_cons_self a t)
      have : a.length ≤ (String.intercalate.go a ", " t).length :=
        intercalate_go_length_le ", " t a
      simpa [String.intercalate] using lt_of_lt_of_le ha this
    rw [hcontra] at hlen
    simp at hlen

/-- Every element of the slice built by `buildStr` is a rendered entry. -/
theorem buildStr_slice_shape (m : List (String × V2.Limit)) (per x : String)
    (hx : (match alookup m per with
      | some (.Limited _ _ p maxR period) => some (limitEntryStr maxR period p)
      | _ => none) = some x) :
    ∃ maxR period p, x = limitEntryStr maxR period p := by
  rcases halo : alookup m per with _ | l
  · rw [halo] at hx; simp at hx
  · rw [halo] at hx
    cases l with
    | Limited r a p mx pd =>
      simp only [Option.some.injEq] at hx
      exact ⟨mx, pd, p, hx.symm⟩
    | Unlimited r a p => simp at hx

/-- `buildStr` is nonempty when some dimension holds a Limited limit. -/
theorem buildStr_ne_empty_of_limited (m : List (String × V2.Limit))
    (per : String) (hmem : per ∈ requiredLimitPer)
    (r a p : String) (maxR : Nat) (period : Int)
    (h : alookup m per = some (.Limited r a p maxR period)) :
    buildStr m ≠ "" := by
  unfold buildStr
  apply intercalate_ne_empty
  · apply List.ne_nil_of_mem (a := limitEntryStr maxR period p)
    exact List.mem_filterMap.mpr ⟨per, hmem, by rw [h]⟩
  · intro x hx
    obtain ⟨per', _, hx'⟩ := List.mem_filterMap.mp hx
    obtain ⟨mx, pd, p', rfl⟩ := buildStr_slice_shape m per' x hx'
    exact limitEntryStr_length_pos _ _ _

/-- `buildStr` is empty when all three dimensions hold Unlimited limits. -/
theorem buildStr_empty_of_unlimited (m : List (String × V2.Limit))
    (r1 a1 p1 r2 a2 p2 r3 a3 p3 : String)
    (h1 : alookup m LimitPerTotal = some (.Unlimited r1 a1 p1))
    (h2 : alookup m LimitPerIPAddress = some (.Unlimited r2 a2 p2))
    (h3 : alookup m LimitPerAuthToken = some (.Unlimited r3 a3 p3)) :
    buildStr m = "" := by
  unfold buildStr requiredLimitPer
  simp [List.filterMap, h1, h2, h3, String.intercalate]

/-! ## Claim C9: the policy header string -/

/-- C9 (amended): for every policy map whose Limited periods are whole
numbers of seconds below `2^53` seconds — where the binary64 computation
of `uint64(Period.Seconds())` is exact — the header built by `buildStr`
is the comma-plus-space-join of exactly the renderings of its Limited
limits taken in the fixed order total, ip, auth_token, each rendered as
`<max_requests>;w=<period in whole seconds>;comment="<per>"` with the
limit's dimension tag; Unlimited limits are omitted; and for a policy
holding a limit for each of the three dimensions, the string is empty iff
all three are Unlimited.  (Without the whole-second restriction the `w=`
field is the binary64 value of `Period.Seconds()` truncated, which can
exceed the whole-second count.) -/
theorem C9_policy_header_string (m : List (String × V2.Limit))
    (hper : ∀ per ∈ requiredLimitPer, ∀ r a p maxR period,
      alookup m per = some (.Limited r a p maxR period) →
        ∃ sec : Nat, sec < 2 ^ 53 ∧ period = (sec : Int) * 1000000000) :
    buildStr m = specPolicyHeader m ∧
    ((∀ per ∈ requiredLimitPer, (alookup m per).isSome) →
      (buildStr m = "" ↔ ∀ per ∈ requiredLimitPer,
        ∃ r a p, alookup m per = some (.Unlimited r a p))) := by
  constructor
  · unfold buildStr specPolicyHeader requiredLimitPer
    congr 1
    apply List.filterMap_congr
    intro per hmem
    rcases halo : alookup m per with _ | l
    · rfl
    cases l with
    | Limited r a p mx pd =>
      obtain ⟨sec, hsec, hpd⟩ := hper per hmem r a p mx pd halo
      subst hpd
      simp only [Option.some.injEq]
      exact limitEntryStr_eq_spec mx sec p hsec
    | Unlimited r a p => rfl
  · intro hfull
    constructor
    · intro hempty per hmem
      have hfp := hfull per hmem
      rcases halo : alookup m per with _ | l
      · rw [halo] at hfp; simp at hfp
      cases l with
      | Limited r a p mx pd =>
        exact absurd hempty
          (buildStr_ne_empty_of_limited m per hmem r a p mx pd halo)
      | Unlimited r a p => exact ⟨r, a, p, rfl⟩
    · intro hallu
      obtain ⟨r1, a1, p1, hq1⟩ :=
        hallu LimitPerTotal (by simp [requiredLimitPer])
      obtain ⟨r2, a2, p2, hq2⟩ :=
        hallu LimitPerIPAddress (by simp [requiredLimitPer])
      obtain ⟨r3, a3, p3, hq3⟩ :=
        hallu LimitPerAuthToken (by simp [requiredLimitPer])
      exact buildStr_empty_of_unlimited m r1 a1 p1 r2 a2 p2 r3 a3 p3 hq1 hq2 hq3

/-- The policy map of the spec's two-Limited, one-Unlimited example
(100 per minute total, 50 per minute per IP, unlimited per token). -/
def c9ExampleMap : List (String × V2.Limit) :=
  [(LimitPerTotal, .Limited "resource" "action" LimitPerTotal 100 60000000000),
   (LimitPerIPAddress, .Limited "resource" "action" LimitPerIPAddress 50 60000000000),
   (LimitPerAuthToken, .Unlimited "resource" "action" LimitPerAuthToken)]

/-- Witness for C9 on the example policy map (both Limited periods are
one whole minute). -/
theorem C9_policy_header_string_witness :
    (∀ per ∈ requiredLimitPer, ∀ r a p maxR period,
      alookup c9ExampleMap per = some (.Limited r a p maxR period) →
        ∃ sec : Nat, sec < 2 ^ 53 ∧ period = (sec : Int) * 1000000000) ∧
    buildStr c9ExampleMap = specPolicyHeader c9ExampleMap := by
  have hyp : ∀ per ∈ requiredLimitPer, ∀ r a p maxR period,
      alookup c9ExampleMap per = some (.Limited r a p maxR period) →
        ∃ sec : Nat, sec < 2 ^ 53 ∧ period = (sec : Int) * 1000000000 := by
    intro per hmem r a p maxR period h
    fin_cases hmem <;>
      simp [c9ExampleMap, alookup, LimitPerTotal, LimitPerIPAddress,
        LimitPerAuthToken, requiredLimitPer] at h <;>
      exact ⟨60, by norm_num, by omega⟩
  exact ⟨hyp, (C9_policy_header_string c9ExampleMap hyp).1⟩

/-- The one-Limited policy map of the C9 counterexample, with the valid
period 16777216s + 999999999ns. -/
def c9CexMap : List (String × V2.Limit) :=
  [(LimitPerTotal, .Limited "r" "a" LimitPerTotal 10 16777216999999999)]

set_option maxRecDepth 10000 in
/-- Counterexample to C9 as stated: for the valid period
16777216s + 999999999ns the binary64 sum `float64(16777216) +
float64(999999999)/1e9` rounds up to `16777217.0` (the gap to `2^24 + 1`
is `1e-9`, below the half-ulp `2^-29` at that magnitude), so Go renders
`w=16777217` — one more than the period's 16777216 whole seconds — and
the built header differs from the spec-worded whole-seconds header. -/
theorem C9_seconds_roundup_counterexample :
    goSecondsW 16777216999999999 = 16777217 ∧
    ((16777216999999999 : Int).toNat / 1000000000 = 16777216) ∧
    buildStr c9CexMap ≠ specPolicyHeader c9CexMap := by
  with_unfolding_all decide

/-! ## Association list and heap lemmas -/

theorem alookup_ainsert_self {α : Type} (l : List (String × α)) (k : String)
    (v : α) : alookup (ainsert l k v) k = some v := by
  induction l with
  | nil => simp [ainsert, alookup]
  | cons p t ih =>
    by_cases h : p.1 = k
    · simp [ainsert, alookup, h]
    · simp [ainsert, alookup, h, ih]

theorem alookup_ainsert_ne {α : Type} (l : List (String × α)) (k k' : String)
    (v : α) (h : k' ≠ k) : alookup (ainsert l k v) k' = alookup l k' := by
  induction l with
  | nil => simp [ainsert, alookup, Ne.symm h]
  | cons p t ih =>
    by_cases hp : p.1 = k
    · subst hp
      simp [ainsert, alookup, Ne.symm h]
    · by_cases hp' : p.1 = k'
      · simp [ainsert, alookup, hp, hp', h]
      · simp [ainsert, alookup, hp, hp', h, ih]

theorem alookup_aerase_self {α : Type} (l : List (String × α)) (k : String) :
    alookup (aerase l k) k = none := by
  induction l with
  | nil => simp [aerase, alookup]
  | cons p t ih =>
    by_cases h : p.1 = k
    · simp [aerase, alookup, h, ih]
    · simp [aerase, alookup, h, ih]

theorem alookup_aerase_ne {α : Type} (l : List (String × α)) (k k' : String)
    (h : k' ≠ k) : alookup (aerase l k) k' = alookup l k' := by
  induction l with
  | nil => simp [aerase, alookup]
  | cons p t ih =>
    by_cases hp : p.1 = k
    · subst hp
      simp [aerase, alookup, Ne.symm h, ih]
    · by_cases hp' : p.1 = k'
      · simp [aerase, alookup, hp, hp', h]
      · simp [aerase, alookup, hp, hp', h, ih]

theorem alookup_mem {α : Type} (l : List (String × α)) (k : String) (v : α)
    (h : alookup l k = some v) : (k, v) ∈ l := by
  induction l with
  | nil => simp [alookup] at h
  | cons p t ih =>
    obtain ⟨p1, p2⟩ := p
    by_cases hp : p1 = k
    · simp only [alookup, if_pos hp] at h
      subst hp
      obtain rfl := Option.some.inj h
      exact List.mem_cons_self _ _
    · simp only [alookup, if_neg hp] at h
      exact List.mem_cons_of_mem _ (ih h)

theorem mem_alookup {α : Type} (l : List (String × α)) (k : String) (v : α)
    (hnd : (akeys l).Nodup) (h : (k, v) ∈ l) : alookup l k = some v := by
  induction l with
  | nil => simp at h
  | cons p t ih =>
    rw [akeys, List.map_cons, List.nodup_cons] at hnd
    rcases List.mem_cons.mp h with rfl | hmem
    · simp [alookup]
    · have hk : p.1 ≠ k := by
        intro hcontra
        exact hnd.1 (hcontra ▸ List.mem_map_of_mem Prod.fst hmem)
      rw [alookup, if_neg hk]
      exact ih hnd.2 hmem

theorem alookup_isSome_of_mem_akeys {α : Type} (l : List (String × α))
    (k : String) (h : k ∈ akeys l) : (alookup l k).isSome := by
  induction l with
  | nil => simp [akeys] at h
  | cons p t ih =>
    by_cases hp : p.1 = k
    · simp [alookup, hp]
    · rw [akeys, List.map_cons] at h
      rcases List.mem_cons.mp h with h' | h'
      · exact absurd h'.symm hp
      · simp only [alookup, if_neg hp]
        exact ih h'

theorem mem_akeys_of_alookup {α : Type} (l : List (String × α)) (k : String)
    (v : α) (h : alookup l k = some v) : k ∈ akeys l :=
  List.mem_map_of_mem Prod.fst (alookup_mem l k v h)

theorem akeys_ainsert {α : Type} (l : List (String × α)) (k : String) (v : α)
    (h : alookup l k = none) : akeys (ainsert l k v) = akeys l ++ [k] := by
  induction l with
  | nil => simp [ainsert, akeys]
  | cons p t ih =>
    by_cases hp : p.1 = k
    · rw [alookup, if_pos hp] at h
      simp at h
    · rw [alookup, if_neg hp] at h
      have iht := ih h
      simp only [akeys] at iht
      simp [ainsert, akeys, hp, iht, List.map_cons]

theorem length_ainsert_of_none {α : Type} (l : List (String × α)) (k : String)
    (v : α) (h : alookup l k = none) :
    (ainsert l k v).length = l.length + 1 := by
  induction l with
  | nil => simp [ainsert]
  | cons p t ih =>
    by_cases hp : p.1 = k
    · rw [alookup, if_pos hp] at h
      simp at h
    · rw [alookup, if_neg hp] at h
      simp [ainsert, hp, ih h]

theorem length_ainsert_of_some {α : Type} (l : List (String × α)) (k : String)
    (v w : α) (h : alookup l k = some w) :
    (ainsert l k v).length = l.length := by
  induction l with
  | nil => simp [alookup] at h
  | cons p t ih =>
    by_cases hp : p.1 = k
    · simp [ainsert, hp]
    · rw [alookup, if_neg hp] at h
      simp [ainsert, hp, ih h]

theorem length_aerase_le {α : Type} (l : List (String × α)) (k : String) :
    (aerase l k).length ≤ l.length := by
  induction l with
  | nil => simp [aerase]
  | cons p t ih =>
    by_cases hp : p.1 = k
    · simp only [aerase, if_pos hp, List.length_cons]
      omega
    · simp only [aerase, if_neg hp, List.length_cons]
      omega

theorem mem_aerase {α : Type} (l : List (String × α)) (k : String)
    (p : String × α) : p ∈ aerase l k ↔ p ∈ l ∧ p.1 ≠ k := by
  induction l with
  | nil => simp [aerase]
  | cons q t ih =>
    by_cases hq : q.1 = k
    · rw [aerase, if_pos hq]
      constructor
      · intro h
        exact ⟨List.mem_cons_of_mem _ (ih.mp h).1, (ih.mp h).2⟩
      · rintro ⟨hmem, hne⟩
        rcases List.mem_cons.mp hmem with rfl | h'
        · exact absurd hq hne
        · exact ih.mpr ⟨h', hne⟩
    · rw [aerase, if_neg hq]
      constructor
      · intro h
        rcases List.mem_cons.mp h with rfl | h'
        · exact ⟨List.mem_cons_self _ _, hq⟩
        · exact ⟨List.mem_cons_of_mem _ (ih.mp h').1, (ih.mp h').2⟩
      · rintro ⟨hmem, hne⟩
        rcases List.mem_cons.mp hmem with rfl | h'
        · exact List.mem_cons_self _ _
        · exact List.mem_cons_of_mem _ (ih.mpr ⟨h', hne⟩)

theorem mem_ainsert {α : Type} (l : List (String × α)) (k : String) (v : α)
    (p : String × α) (hnd : (akeys l).Nodup) :
    p ∈ ainsert l k v ↔ p = (k, v) ∨ (p ∈ l ∧ p.1 ≠ k) := by
  induction l with
  | nil => simp [ainsert]
  | cons q t ih =>
    rw [akeys, List.map_cons, List.nodup_cons] at hnd
    have iht := ih hnd.2
    by_cases hq : q.1 = k
    · rw [ainsert, if_pos hq]
      constructor
      · intro h
        rcases List.mem_cons.mp h with rfl | h'
        · exact Or.inl rfl
        · have hpk : p.1 ≠ k := by
            intro hc
            apply hnd.1
            rw [hq, ← hc]
            exact List.mem_map_of_mem Prod.fst h'
          exact Or.inr ⟨List.mem_cons_of_mem _ h', hpk⟩
      · rintro (rfl | ⟨hmem, hne⟩)
        · exact List.mem_cons_self _ _
        · rcases List.mem_cons.mp hmem with rfl | h'
          · exact absurd hq hne
          · exact List.mem_cons_of_mem _ h'
    · rw [ainsert, if_neg hq]
      constructor
      · intro h
        rcases List.mem_cons.mp h with rfl | h'
        · exact Or.inr ⟨List.mem_cons_self _ _, hq⟩
        · rcases iht.mp h' with h'' | ⟨hmem, hne⟩
          · exact Or.inl h''
          · exact Or.inr ⟨List.mem_cons_of_mem _ hmem, hne⟩
      · rintro (rfl | ⟨hmem, hne⟩)
        · exact List.mem_cons_of_mem _ (iht.mpr (Or.inl rfl))
        · rcases List.mem_cons.mp hmem with rfl | h'
          · exact List.mem_cons_self _ _
          · exact List.mem_cons_of_mem _ (iht.mpr (Or.inr ⟨h', hne⟩))

theorem getD_set_self {α : Type} (l : List α) (i : Nat) (x d : α)
    (h : i < l.length) : (l.set i x).getD i d = x := by
  simp [List.getD_eq_getElem?_getD, List.getElem?_set_self', h]

theorem getD_set_ne {α : Type} (l : List α) (i j : Nat) (x d : α)
    (h : j ≠ i) : (l.set i x).getD j d = l.getD j d := by
  simp [List.getD_eq_getElem?_getD, List.getElem?_set_ne (Ne.symm h)]

theorem entryAt_heapSet_self (s : ExpirableStore) (eid : Nat) (e : EntryData)
    (h : eid < s.heap.length) : (s.heapSet eid e).entryAt eid = e :=
  getD_set_self s.heap eid e default h

theorem entryAt_heapSet_ne (s : ExpirableStore) (eid eid' : Nat)
    (e : EntryData) (h : eid' ≠ eid) :
    (s.heapSet eid e).entryAt eid' = s.entryAt eid' :=
  getD_set_ne s.heap eid eid' e default h

theorem bucketAt_set_self (s : ExpirableStore) (i : Nat) (b : Bucket)
    (h : i < s.buckets.length) :
    ({ s with buckets := s.buckets.set i b } : ExpirableStore).bucketAt i = b :=
  getD_set_self s.buckets i b default h

theorem bucketAt_set_ne (s : ExpirableStore) (i j : Nat) (b : Bucket)
    (h : j ≠ i) :
    ({ s with buckets := s.buckets.set i b } : ExpirableStore).bucketAt j =
      s.bucketAt j :=
  getD_set_ne s.buckets i j b default h

/-! ## Claim C6: fetch on a full store -/

/-- On a store at capacity, a fetch for a new key fails `ErrLimiterFull`
with `RetryIn = bucketTTL`, leaves `items` and `buckets` untouched, and
returns the pooled entry to the pool. -/
theorem fetch_full_fails (s : ExpirableStore) (now : Int) (id : String)
    (limit : Limit) (hstop : s.stopped = false)
    (hpool : ∀ e ∈ s.pool, e < s.heap.length)
    (hkey : alookup s.items
      (getKey [limit.resource, limit.action, limit.per, id]) = none)
    (hfull : s.maxSize ≤ s.items.length) :
    (s.fetch now id limit).1 = .error (.limiterFull s.bucketTTL) ∧
    (s.fetch now id limit).2.items = s.items ∧
    (s.fetch now id limit).2.buckets = s.buckets ∧
    ((s.fetch now id limit).2.pool = s.pool ∨
      (s.pool = [] ∧ (s.fetch now id limit).2.pool = [s.heap.length])) := by
  rcases hp : s.pool with _ | ⟨eid, rest⟩
  · -- pool empty: a fresh entry is allocated at the end of the heap
    have hlen : s.heap.length < (s.heap ++ [(default : EntryData)]).length := by
      simp
    simp only [ExpirableStore.fetch, hstop, Bool.false_eq_true, if_false,
      hkey, ExpirableStore.poolGet, hp, ExpirableStore.heapSet,
      ExpirableStore.add, ExpirableStore.entryAt]
    rw [getD_set_self _ _ _ _ (by simp)]
    simp only [hkey, hfull, and_true, if_pos rfl]
    simp [hp]
  · have heid : eid < s.heap.length := hpool eid (by rw [hp]; exact List.mem_cons_self _ _)
    simp only [ExpirableStore.fetch, hstop, Bool.false_eq_true, if_false,
      hkey, ExpirableStore.poolGet, hp, ExpirableStore.heapSet,
      ExpirableStore.add, ExpirableStore.entryAt]
    rw [getD_set_self _ _ _ _ (by simpa using heid)]
    simp only [hkey, hfull, and_true, if_pos rfl]
    simp [hp]

/-- A fetch for a key already stored always succeeds and returns the
stored entry, full store or not. -/
theorem fetch_existing_succeeds (s : ExpirableStore) (now : Int) (id : String)
    (limit : Limit) (hstop : s.stopped = false) (eid : Nat)
    (hkey : alookup s.items
      (getKey [limit.resource, limit.action, limit.per, id]) = some eid) :
    (s.fetch now id limit).1 = .ok eid := by
  simp only [ExpirableStore.fetch, hstop, Bool.false_eq_true, if_false, hkey]
  by_cases hexp : (s.entryAt eid).value.Expired now
  · simp [hexp]
  · simp [hexp]

/-- The `bucketTTL` of a successfully constructed store is
`max_entry_ttl / (number_buckets − 1)`. -/
theorem bucketTTL_of_newExpirableStore (ms ttl nb : Int) (s : ExpirableStore)
    (h : newExpirableStore ms ttl nb = .ok s) :
    s.bucketTTL = ttl.tdiv (nb - 1) := by
  unfold newExpirableStore at h
  split at h
  · exact absurd h (by simp)
  · split at h
    · exact absurd h (by simp)
    · split at h
      · exact absurd h (by simp)
      · split at h
        · exact absurd h (by simp)
        · obtain rfl := NewStoreResult.ok.inj h
          rfl

/-- C6: when fetch is called for a key not in the store and
`|items| ≥ max_size`, it fails with the LimiterFull error carrying
`RetryIn = bucket_ttl` (for a constructed store,
`max_entry_ttl / (number_buckets − 1)`), and `items` and `buckets` are
unchanged, the pooled entry being returned to the pool (or, when the pool
was empty, the freshly allocated entry being pooled); while the store is
full, fetches for keys already present still succeed. -/
theorem C6_full_store_behaviour (s : ExpirableStore) (now : Int)
    (id : String) (limit : Limit) (hstop : s.stopped = false)
    (hpool : ∀ e ∈ s.pool, e < s.heap.length) :
    (alookup s.items
        (getKey [limit.resource, limit.action, limit.per, id]) = none →
      s.maxSize ≤ s.items.length →
      (s.fetch now id limit).1 = .error (.limiterFull s.bucketTTL) ∧
      (s.fetch now id limit).2.items = s.items ∧
      (s.fetch now id limit).2.buckets = s.buckets ∧
      ((s.fetch now id limit).2.pool = s.pool ∨
        (s.pool = [] ∧ (s.fetch now id limit).2.pool = [s.heap.length]))) ∧
    (∀ eid, alookup s.items
        (getKey [limit.resource, limit.action, limit.per, id]) = some eid →
      (s.fetch now id limit).1 = .ok eid) ∧
    (∀ ms ttl nb s₀, newExpirableStore ms ttl nb = .ok s₀ →
      s₀.bucketTTL = ttl.tdiv (nb - 1)) :=
  ⟨fun hkey hfull => fetch_full_fails s now id limit hstop hpool hkey hfull,
   fun eid hkey => fetch_existing_succeeds s now id limit hstop eid hkey,
   fun ms ttl nb s₀ h => bucketTTL_of_newExpirableStore ms ttl nb s₀ h⟩

/-- A one-slot store for the C6 witness. -/
def c6Store0 : ExpirableStore :=
  match newExpirableStore 1 60000000000 4 with
  | .ok s => s
  | _ => default

/-- The limit whose quota fills the one-slot store. -/
def c6Limit1 : Limit := ⟨"r1", "a1", "total", false, 100, 60000000000⟩

/-- A limit for a second, never-stored key. -/
def c6Limit2 : Limit := ⟨"r2", "a2", "total", false, 100, 60000000000⟩

/-- The full store: the single slot is taken by the quota of `c6Limit1`. -/
def c6Store : ExpirableStore := (c6Store0.fetch 0 "total" c6Limit1).2

/-- Witness for C6: on the full one-slot store, a first-ever fetch of the
second key fails `LimiterFull` with `RetryIn = bucketTTL` and a fetch of
the stored key still succeeds. -/
theorem C6_full_store_behaviour_witness :
    (c6Store.stopped = false ∧ (∀ e ∈ c6Store.pool, e < c6Store.heap.length) ∧
      alookup c6Store.items
        (getKey [c6Limit2.resource, c6Limit2.action, c6Limit2.per, "total"]) =
          none ∧
      c6Store.maxSize ≤ c6Store.items.length) ∧
    (c6Store.fetch 0 "total" c6Limit2).1 =
      .error (.limiterFull c6Store.bucketTTL) ∧
    (c6Store.fetch 0 "total" c6Limit1).1 = .ok 0 := by
  refine ⟨⟨by decide, by decide, by decide, by decide⟩, ?_, ?_⟩
  · exact ((C6_full_store_behaviour c6Store 0 "total" c6Limit2 (by decide)
      (by decide)).1 (by decide) (by decide)).1
  · exact (C6_full_store_behaviour c6Store 0 "total" c6Limit1 (by decide)
      (by decide)).2.1 0 (by decide)

/-! ## Claim C4: stability and reset of stored quotas under fetch -/

/-- The bucket index chosen by `addToBucket` is in range. -/
theorem goBucketIndex_lt (period bucketTTL : Int) (next n : Nat)
    (hn : 0 < n) : goBucketIndex period bucketTTL next n < n := by
  unfold goBucketIndex
  have h2 : (period.tdiv bucketTTL + (next : Int)).tmod (n : Int) < (n : Int) :=
    Int.tmod_lt_of_pos _ (by exact_mod_cast hn)
  omega

/-- A fetch of a live (unexpired) stored key returns the stored entry and
leaves the whole store unchanged. -/
theorem fetch_live_unchanged (s : ExpirableStore) (now : Int) (id : String)
    (limit : Limit) (hstop : s.stopped = false) (eid : Nat)
    (hkey : alookup s.items
      (getKey [limit.resource, limit.action, limit.per, id]) = some eid)
    (hlive : (s.entryAt eid).value.Expired now = false) :
    s.fetch now id limit = (.ok eid, s) := by
  simp only [ExpirableStore.fetch, hstop, Bool.false_eq_true, if_false, hkey,
    hlive]

/-- A fetch of an expired stored key returns the same entry (`eid`), keeps
`items` untouched, resets the entry's quota to
`{limit, used := 0, expiresAt := now + period}`, re-buckets the entry at
the index computed from the new limit, and removes it from its previous
bucket when that differs. -/
theorem fetch_expired_resets (s : ExpirableStore) (now : Int) (id : String)
    (limit : Limit) (hstop : s.stopped = false) (eid : Nat)
    (hkey : alookup s.items
      (getKey [limit.resource, limit.action, limit.per, id]) = some eid)
    (hexp : (s.entryAt eid).value.Expired now = true)
    (heid : eid < s.heap.length)
    (hn : 0 < s.numberBuckets)
    (hblen : s.buckets.length = s.numberBuckets)
    (hbuck : (s.entryAt eid).bucket < s.numberBuckets) :
    (s.fetch now id limit).1 = .ok eid ∧
    (s.fetch now id limit).2.items = s.items ∧
    (s.fetch now id limit).2.entryAt eid =
      ⟨(s.entryAt eid).key, ⟨limit, 0, now + limit.period⟩,
        goBucketIndex limit.period s.bucketTTL s.nextBucketToExpire
          s.numberBuckets⟩ ∧
    alookup ((s.fetch now id limit).2.bucketAt
        (goBucketIndex limit.period s.bucketTTL s.nextBucketToExpire
          s.numberBuckets)).entries (s.entryAt eid).key = some eid ∧
    ((s.entryAt eid).bucket ≠
        goBucketIndex limit.period s.bucketTTL s.nextBucketToExpire
          s.numberBuckets →
      alookup ((s.fetch now id limit).2.bucketAt
        (s.entryAt eid).bucket).entries (s.entryAt eid).key = none) := by
  have hbidx := goBucketIndex_lt limit.period s.bucketTTL
    s.nextBucketToExpire s.numberBuckets hn
  have hexp' : (s.heap.getD eid default).value.Expired now = true := by
    simpa [ExpirableStore.entryAt] using hexp
  simp only [ExpirableStore.fetch, hstop, Bool.false_eq_true, if_false, hkey,
    hexp, hexp', if_true, ExpirableStore.removeFromBucket,
    ExpirableStore.heapSet, ExpirableStore.addToBucket,
    ExpirableStore.entryAt, ExpirableStore.bucketAt, Quota.reset]
  set old := s.heap.getD eid default with hold
  set oldBk := s.buckets.getD old.bucket default with holdBk
  set bks1 := s.buckets.set old.bucket
    { oldBk with entries := aerase oldBk.entries old.key } with hbks1
  have hg1 : (s.heap.set eid
      { old with value := ⟨limit, 0, now + limit.period⟩ }).getD eid default =
      { old with value := ⟨limit, 0, now + limit.period⟩ } :=
    getD_set_self _ _ _ _ heid
  rw [hg1]
  simp only []
  set e2 : EntryData := { old with value := ⟨limit, 0, now + limit.period⟩ }
    with he2
  set b := goBucketIndex limit.period s.bucketTTL s.nextBucketToExpire
    s.numberBuckets with hb
  have hg2 : ((s.heap.set eid e2).set eid { e2 with bucket := b }).getD eid
      default = { e2 with bucket := b } :=
    getD_set_self _ _ _ _ (by simpa using heid)
  have hbuck' : old.bucket < s.numberBuckets := hbuck
  refine ⟨trivial, trivial, ?_, ?_, ?_⟩
  · exact hg2
  · have hblt : b < bks1.length := by
      rw [hbks1]
      simp [hblen, hbidx]
    rw [getD_set_self _ _ _ _ hblt]
    split <;> exact alookup_ainsert_self _ _ _
  · intro hne
    rw [getD_set_ne _ _ _ _ _ hne]
    rw [hbks1, getD_set_self _ _ _ _ (by simp [hblen, hbuck'])]
    exact alookup_aerase_self _ _

/-- C4: for every (id, limit) pair, as long as the stored quota's window
has not expired, a fetch returns the same entry (same `eid`, hence the
same Quota instance) with the whole store state unchanged; a fetch that
finds the quota expired keeps it under the same key with the same
identity, removes it from its current bucket, resets it
(`used ← 0`, `expires_at ← now + limit.period`), re-inserts it into the
bucket computed for its new window, and returns that same instance. -/
theorem C4_fetch_same_instance (s : ExpirableStore) (now : Int) (id : String)
    (limit : Limit) (hstop : s.stopped = false) (eid : Nat)
    (hkey : alookup s.items
      (getKey [limit.resource, limit.action, limit.per, id]) = some eid) :
    ((s.entryAt eid).value.Expired now = false →
      s.fetch now id limit = (.ok eid, s)) ∧
    ((s.entryAt eid).value.Expired now = true →
      eid < s.heap.length → 0 < s.numberBuckets →
      s.buckets.length = s.numberBuckets →
      (s.entryAt eid).bucket < s.numberBuckets →
      (s.fetch now id limit).1 = .ok eid ∧
      (s.fetch now id limit).2.items = s.items ∧
      (s.fetch now id limit).2.entryAt eid =
        ⟨(s.entryAt eid).key, ⟨limit, 0, now + limit.period⟩,
          goBucketIndex limit.period s.bucketTTL s.nextBucketToExpire
            s.numberBuckets⟩ ∧
      alookup ((s.fetch now id limit).2.bucketAt
          (goBucketIndex limit.period s.bucketTTL s.nextBucketToExpire
            s.numberBuckets)).entries (s.entryAt eid).key = some eid ∧
      ((s.entryAt eid).bucket ≠
          goBucketIndex limit.period s.bucketTTL s.nextBucketToExpire
            s.numberBuckets →
        alookup ((s.fetch now id limit).2.bucketAt
          (s.entryAt eid).bucket).entries (s.entryAt eid).key = none)) :=
  ⟨fun hlive => fetch_live_unchanged s now id limit hstop eid hkey hlive,
   fun hexp heid hn hblen hbuck =>
     fetch_expired_resets s now id limit hstop eid hkey hexp heid hn hblen hbuck⟩

/-- Witness for C4 on the one-slot store: at `now = 1` the stored quota is
live and the fetch is an identity; at `now = 60s` it is expired and the
fetch still returns entry 0. -/
theorem C4_fetch_same_instance_witness :
    (c6Store.stopped = false ∧
      alookup c6Store.items
        (getKey [c6Limit1.resource, c6Limit1.action, c6Limit1.per, "total"]) =
          some 0 ∧
      (c6Store.entryAt 0).value.Expired 1 = false ∧
      (c6Store.entryAt 0).value.Expired 60000000000 = true) ∧
    c6Store.fetch 1 "total" c6Limit1 = (.ok 0, c6Store) ∧
    (c6Store.fetch 60000000000 "total" c6Limit1).1 = .ok 0 := by
  refine ⟨⟨by decide, by decide, by decide, by decide⟩, ?_, ?_⟩
  · exact (C4_fetch_same_instance c6Store 1 "total" c6Limit1 (by decide) 0
      (by decide)).1 (by decide)
  · exact ((C4_fetch_same_instance c6Store 60000000000 "total" c6Limit1
      (by decide) 0 (by decide)).2 (by decide) (by decide) (by decide)
      (by decide) (by decide)).1

/-! ## Claim C5: the items/buckets coherence invariant -/

theorem aerase_sublist {α : Type} (l : List (String × α)) (k : String) :
    (aerase l k).Sublist l := by
  induction l with
  | nil => simp [aerase]
  | cons p t ih =>
    by_cases hp : p.1 = k
    · rw [aerase, if_pos hp]
      exact ih.cons p
    · rw [aerase, if_neg hp]
      exact ih.cons₂ p

theorem akeys_nodup_aerase {α : Type} (l : List (String × α)) (k : String)
    (h : (akeys l).Nodup) : (akeys (aerase l k)).Nodup :=
  ((aerase_sublist l k).map Prod.fst).nodup h

theorem snds_nodup_aerase {α : Type} (l : List (String × α)) (k : String)
    (h : (l.map Prod.snd).Nodup) : ((aerase l k).map Prod.snd).Nodup :=
  ((aerase_sublist l k).map Prod.snd).nodup h

theorem ainsert_of_none {α : Type} (l : List (String × α)) (k : String)
    (v : α) (h : alookup l k = none) : ainsert l k v = l ++ [(k, v)] := by
  induction l with
  | nil => simp [ainsert]
  | cons p t ih =>
    by_cases hp : p.1 = k
    · rw [alookup, if_pos hp] at h
      simp at h
    · rw [alookup, if_neg hp] at h
      simp [ainsert, hp, ih h]

theorem mem_akeys_ainsert {α : Type} (l : List (String × α)) (k : String)
    (v : α) (k' : String) :
    k' ∈ akeys (ainsert l k v) ↔ k' ∈ akeys l ∨ k' = k := by
  induction l with
  | nil => simp [ainsert, akeys]
  | cons p t ih =>
    by_cases hp : p.1 = k
    · rw [ainsert, if_pos hp]
      simp only [akeys, List.map_cons, List.mem_cons, hp]
      tauto
    · rw [ainsert, if_neg hp]
      simp only [akeys, List.map_cons, List.mem_cons] at ih ⊢
      constructor
      · rintro (h' | h')
        · exact Or.inl (Or.inl h')
        · rcases ih.mp h' with h'' | h''
          · exact Or.inl (Or.inr h'')
          · exact Or.inr h''
      · rintro ((h' | h') | h')
        · exact Or.inl h'
        · exact Or.inr (ih.mpr (Or.inl h'))
        · exact Or.inr (ih.mpr (Or.inr h'))

theorem akeys_nodup_ainsert {α : Type} (l : List (String × α)) (k : String)
    (v : α) (h : (akeys l).Nodup) : (akeys (ainsert l k v)).Nodup := by
  induction l with
  | nil => simp [ainsert, akeys]
  | cons p t ih =>
    rw [akeys, List.map_cons, List.nodup_cons] at h
    by_cases hp : p.1 = k
    · rw [ainsert, if_pos hp]
      rw [akeys, List.map_cons, List.nodup_cons]
      exact ⟨by simpa [akeys, hp] using h.1, h.2⟩
    · rw [ainsert, if_neg hp]
      rw [akeys, List.map_cons, List.nodup_cons]
      refine ⟨fun hc => ?_, ih h.2⟩
      rcases (mem_akeys_ainsert t k v p.1).mp hc with hc' | hc'
      · exact h.1 (by simpa [akeys] using hc')
      · exact hp hc'

/-- The store invariant of C5: the buckets array has the configured
length, counts fit under `max_size`, `items` and every bucket map have
distinct keys, every item's entry is at a live heap slot whose recorded
key matches, whose bucket index is in range, and whose bucket holds
exactly that entry under that key; conversely every bucket occupant is an
item whose recorded bucket is that bucket; pooled entries are live heap
slots not referenced by any item. -/
def StoreInv (s : ExpirableStore) : Prop :=
  s.buckets.length = s.numberBuckets ∧
  0 < s.numberBuckets ∧
  0 < s.bucketTTL ∧
  s.nextBucketToExpire < s.numberBuckets ∧
  s.items.length ≤ s.maxSize ∧
  (akeys s.items).Nodup ∧
  (s.items.map Prod.snd).Nodup ∧
  (∀ p ∈ s.items, p.2 < s.heap.length ∧ (s.entryAt p.2).key = p.1 ∧
    (s.entryAt p.2).bucket < s.numberBuckets ∧
    alookup (s.bucketAt (s.entryAt p.2).bucket).entries p.1 = some p.2) ∧
  (∀ j < s.numberBuckets, (akeys (s.bucketAt j).entries).Nodup ∧
    ∀ q ∈ (s.bucketAt j).entries, alookup s.items q.1 = some q.2 ∧
      (s.entryAt q.2).bucket = j) ∧
  (∀ e ∈ s.pool, e < s.heap.length ∧ e ∉ s.items.map Prod.snd) ∧
  s.pool.Nodup

theorem eq_of_mem_of_snds_nodup {α : Type} (l : List (String × α))
    (h : (l.map Prod.snd).Nodup) (p q : String × α) (hp : p ∈ l) (hq : q ∈ l)
    (heq : p.2 = q.2) : p = q := by
  induction l with
  | nil => simp at hp
  | cons a t ih =>
    rw [List.map_cons, List.nodup_cons] at h
    rcases List.mem_cons.mp hp with rfl | hp' <;>
      rcases List.mem_cons.mp hq with rfl | hq'
    · rfl
    · exact absurd (heq ▸ List.mem_map_of_mem Prod.snd hq') h.1
    · exact absurd (heq ▸ List.mem_map_of_mem Prod.snd hp') h.1
    · exact ih h.2 hp' hq'

/-- `removeEntry` of a stored entry preserves the store invariant. -/
theorem StoreInv_removeEntry (t : ExpirableStore) (hInv : StoreInv t)
    (eid : Nat) (hmem : alookup t.items ((t.entryAt eid).key) = some eid) :
    StoreInv (t.removeEntry eid) := by
  obtain ⟨hblen, hn, httl, hnext, hsize, hknd, hend, hitems, hbuckets, hpool,
    hpoolnd⟩ := hInv
  simp only [ExpirableStore.entryAt, ExpirableStore.bucketAt]
    at hmem hitems hbuckets
  have hpairmem : ((t.heap.getD eid default).key, eid) ∈ t.items :=
    alookup_mem _ _ _ hmem
  obtain ⟨heid, hekey, hebuck, hebloc⟩ := hitems _ hpairmem
  have heidmem : eid ∈ t.items.map Prod.snd :=
    List.mem_map_of_mem Prod.snd hpairmem
  simp only [ExpirableStore.removeEntry, ExpirableStore.removeFromBucket,
    StoreInv, ExpirableStore.entryAt, ExpirableStore.bucketAt]
  refine ⟨by simpa using hblen, hn, httl, hnext,
    le_trans (length_aerase_le _ _) hsize, akeys_nodup_aerase _ _ hknd,
    snds_nodup_aerase _ _ hend, ?_, ?_, ?_, ?_⟩
  · intro p hp
    obtain ⟨hpmem, hpne⟩ := (mem_aerase _ _ _).mp hp
    obtain ⟨h1, h2, h3, h4⟩ := hitems p hpmem
    refine ⟨h1, h2, h3, ?_⟩
    by_cases hsame : (t.heap.getD p.2 default).bucket =
        (t.heap.getD eid default).bucket
    · rw [hsame]
      have hlt : (t.heap.getD eid default).bucket < t.buckets.length := by
        rw [hblen]; exact hebuck
      rw [getD_set_self _ _ _ _ hlt]
      show alookup (aerase _ _) p.1 = some p.2
      rw [alookup_aerase_ne _ _ _ hpne]
      exact hsame ▸ h4
    · rw [getD_set_ne _ _ _ _ _ hsame]
      exact h4
  · intro j hj
    obtain ⟨hjnd, hjmem⟩ := hbuckets j hj
    by_cases hsame : j = (t.heap.getD eid default).bucket
    · subst hsame
      have hlt : (t.heap.getD eid default).bucket < t.buckets.length := by
        rw [hblen]; exact hebuck
      rw [getD_set_self _ _ _ _ hlt]
      refine ⟨akeys_nodup_aerase _ _ hjnd, ?_⟩
      intro q hq
      obtain ⟨hqmem, hqne⟩ := (mem_aerase _ _ _).mp hq
      obtain ⟨hq1, hq2⟩ := hjmem q hqmem
      exact ⟨by rw [alookup_aerase_ne _ _ _ hqne]; exact hq1, hq2⟩
    · rw [getD_set_ne _ _ _ _ _ hsame]
      refine ⟨hjnd, ?_⟩
      intro q hq
      obtain ⟨hq1, hq2⟩ := hjmem q hq
      have hqne : q.1 ≠ (t.heap.getD eid default).key := by
        intro hc
        rw [hc] at hq1
        have hq2eq : q.2 = eid := Option.some.inj (hq1.symm.trans hmem)
        rw [hq2eq] at hq2
        exact hsame hq2.symm
      exact ⟨by rw [alookup_aerase_ne _ _ _ hqne]; exact hq1, hq2⟩
  · intro x hx
    rcases List.mem_cons.mp hx with rfl | hx'
    · refine ⟨heid, fun hc => ?_⟩
      obtain ⟨p, hpmem, hpsnd⟩ := List.mem_map.mp hc
      obtain ⟨hpmem', hpne⟩ := (mem_aerase _ _ _).mp hpmem
      have := eq_of_mem_of_snds_nodup t.items hend p
        ((t.heap.getD x default).key, x) hpmem' hpairmem (by simpa using hpsnd)
      exact hpne (by rw [this])
    · obtain ⟨hx1, hx2⟩ := hpool x hx'
      refine ⟨hx1, fun hc => ?_⟩
      obtain ⟨p, hpmem, hpsnd⟩ := List.mem_map.mp hc
      obtain ⟨hpmem', _⟩ := (mem_aerase _ _ _).mp hpmem
      exact hx2 (List.mem_map.mpr ⟨p, hpmem', hpsnd⟩)
  · refine List.nodup_cons.mpr ⟨fun hc => ?_, hpoolnd⟩
    exact (hpool eid hc).2 heidmem

/-- Folding `removeEntry` over stored entries with distinct keys preserves
the invariant. -/
theorem StoreInv_fold_removeEntry (l : List (String × Nat)) :
    ∀ (t : ExpirableStore), StoreInv t →
    (∀ q ∈ l, alookup t.items q.1 = some q.2 ∧ (t.entryAt q.2).key = q.1) →
    (akeys l).Nodup →
    StoreInv (l.foldl (fun acc p => acc.removeEntry p.2) t) := by
  induction l with
  | nil => intro t hInv _ _; simpa using hInv
  | cons q rest ih =>
    intro t hInv hl hlnd
    rw [List.foldl_cons]
    have hq := hl q (List.mem_cons_self _ _)
    have hmem : alookup t.items ((t.entryAt q.2).key) = some q.2 := by
      rw [hq.2]; exact hq.1
    have hInv' := StoreInv_removeEntry t hInv q.2 hmem
    rw [akeys, List.map_cons, List.nodup_cons] at hlnd
    apply ih _ hInv' ?_ hlnd.2
    intro r hr
    have hrq := hl r (List.mem_cons_of_mem _ hr)
    have hritems : (t.removeEntry q.2).items =
        aerase t.items (t.entryAt q.2).key := rfl
    have hrheap : (t.removeEntry q.2).entryAt r.2 = t.entryAt r.2 := rfl
    have hrne : r.1 ≠ q.1 := by
      intro hc
      exact hlnd.1 (hc ▸ List.mem_map_of_mem Prod.fst hr)
    refine ⟨?_, by rw [hrheap]; exact hrq.2⟩
    rw [hritems, hq.2, alookup_aerase_ne _ _ _ hrne]
    exact hrq.1

/-- The reclamation sweep preserves the store invariant. -/
theorem StoreInv_emptyExpiredBucket (s : ExpirableStore) (hInv : StoreInv s) :
    StoreInv s.emptyExpiredBucket := by
  obtain ⟨hblen, hn, httl, hnext, hsize, hknd, hend, hitems, hbuckets, hpool,
    hpoolnd⟩ := hInv
  have hInv' : StoreInv
      { s with nextBucketToExpire :=
          (s.nextBucketToExpire + 1) % s.numberBuckets } :=
    ⟨hblen, hn, httl, Nat.mod_lt _ hn, hsize, hknd, hend, hitems, hbuckets,
      hpool, hpoolnd⟩
  unfold ExpirableStore.emptyExpiredBucket
  apply StoreInv_fold_removeEntry _ _ hInv' ?_ ?_
  · intro q hq
    obtain ⟨hq1, hq2⟩ := (hbuckets s.nextBucketToExpire hnext).2 q hq
    refine ⟨hq1, ?_⟩
    have hqmem : (q.1, q.2) ∈ s.items := alookup_mem _ _ _ hq1
    exact (hitems _ hqmem).2.1
  · exact (hbuckets s.nextBucketToExpire hnext).1

theorem getD_append_left {α : Type} (l l' : List α) (i : Nat) (d : α)
    (h : i < l.length) : (l ++ l').getD i d = l.getD i d := by
  simp [List.getD_eq_getElem?_getD, List.getElem?_append_left h]

/-- A fetch that resets an expired stored quota preserves the store
invariant. -/
theorem StoreInv_fetch_expired (s : ExpirableStore) (now : Int) (id : String)
    (limit : Limit) (hInv : StoreInv s) (hstop : s.stopped = false) (eid : Nat)
    (hkey : alookup s.items
      (getKey [limit.resource, limit.action, limit.per, id]) = some eid)
    (hexp : (s.entryAt eid).value.Expired now = true) :
    StoreInv (s.fetch now id limit).2 := by
  obtain ⟨hblen, hn, httl, hnext, hsize, hknd, hend, hitems, hbuckets, hpool,
    hpoolnd⟩ := hInv
  simp only [ExpirableStore.entryAt, ExpirableStore.bucketAt]
    at hexp hitems hbuckets
  have hpairmem := alookup_mem _ _ _ hkey
  obtain ⟨heid, hekey, hebuck, hebloc⟩ := hitems _ hpairmem
  have hexp' : (s.heap.getD eid default).value.Expired now = true := hexp
  have hbidx := goBucketIndex_lt limit.period s.bucketTTL
    s.nextBucketToExpire s.numberBuckets hn
  simp only [ExpirableStore.fetch, hstop, Bool.false_eq_true, if_false, hkey,
    hexp', if_true, ExpirableStore.removeFromBucket, ExpirableStore.heapSet,
    ExpirableStore.addToBucket, ExpirableStore.entryAt,
    ExpirableStore.bucketAt, Quota.reset, StoreInv]
  set old := s.heap.getD eid default with hold
  set oldBk := s.buckets.getD old.bucket default with holdBk
  set bks1 := s.buckets.set old.bucket
    { oldBk with entries := aerase oldBk.entries old.key } with hbks1
  have hg1 : (s.heap.set eid
      { old with value := ⟨limit, 0, now + limit.period⟩ }).getD eid default =
      { old with value := ⟨limit, 0, now + limit.period⟩ } :=
    getD_set_self _ _ _ _ heid
  rw [hg1]
  simp only []
  set qnew : Quota := ⟨limit, 0, now + limit.period⟩ with hqnew
  set e2 : EntryData := { old with value := qnew } with he2
  set b := goBucketIndex limit.period s.bucketTTL s.nextBucketToExpire
    s.numberBuckets with hb
  rw [List.set_set]
  set e3 : EntryData := { key := old.key, value := qnew, bucket := b } with he3
  set heap3 := s.heap.set eid e3 with hheap3
  -- the bucket written at index b always holds the inserted entries
  set baseB := (bks1.getD b default).entries with hbaseB
  have hKitems : alookup s.items old.key = some eid := by
    rw [show old.key = (s.heap.getD eid default).key from rfl, hekey]
    exact hkey
  have heap3len : heap3.length = s.heap.length := by
    rw [hheap3]; simp
  have hentry3self : heap3.getD eid default = e3 := getD_set_self _ _ _ _ heid
  have hentry3ne : ∀ x, x ≠ eid → heap3.getD x default = s.heap.getD x default :=
    fun x hx => getD_set_ne _ _ _ _ _ hx
  have hb1len : bks1.length = s.numberBuckets := by
    rw [hbks1]; simp [hblen]
  -- base entries of the destination bucket and where they come from
  have hbaseB_eq : baseB = if b = old.bucket then aerase oldBk.entries old.key
      else (s.buckets.getD b default).entries := by
    rw [hbaseB, hbks1]
    by_cases hob : b = old.bucket
    · rw [if_pos hob, hob, getD_set_self _ _ _ _ (by rw [hblen]; exact hebuck)]
    · rw [if_neg hob, getD_set_ne _ _ _ _ _ hob]
  have hbaseB_mem : ∀ q ∈ baseB, q ∈ (s.buckets.getD b default).entries ∧
      q.1 ≠ old.key ∨ q ∈ (s.buckets.getD b default).entries := by
    intro q hq
    rw [hbaseB_eq] at hq
    by_cases hob : b = old.bucket
    · rw [if_pos hob] at hq
      obtain ⟨hq1, hq2⟩ := (mem_aerase _ _ _).mp hq
      rw [hob]
      exact Or.inl ⟨hq1, hq2⟩
    · rw [if_neg hob] at hq
      exact Or.inr hq
  have hbaseB_lookup_none : alookup baseB old.key = none := by
    rw [hbaseB_eq]
    by_cases hob : b = old.bucket
    · rw [if_pos hob]
      exact alookup_aerase_self _ _
    · rw [if_neg hob]
      rcases hlk : alookup (s.buckets.getD b default).entries old.key
        with _ | v
      · rfl
      · obtain ⟨hv1, hv2⟩ := (hbuckets b hbidx).2 _ (alookup_mem _ _ _ hlk)
        have hveq : v = eid := Option.some.inj (hv1.symm.trans hKitems)
        rw [hveq] at hv2
        exact (hob hv2.symm).elim
  have hbaseB_nd : (akeys baseB).Nodup := by
    rw [hbaseB_eq]
    by_cases hob : b = old.bucket
    · rw [if_pos hob]
      exact akeys_nodup_aerase _ _ (hbuckets old.bucket hebuck).1
    · rw [if_neg hob]
      exact (hbuckets b hbidx).1
  -- a pair with value eid stored anywhere in items must carry old.key
  have heidkey : ∀ p : String × Nat, p ∈ s.items → p.2 = eid →
      p.1 = old.key := by
    intro p hp hpe
    have := eq_of_mem_of_snds_nodup s.items hend p
      (getKey [limit.resource, limit.action, limit.per, id], eid) hp hpairmem
      (by simpa using hpe)
    rw [this]
    rw [show old.key = (s.heap.getD eid default).key from rfl, hekey]
  refine ⟨?_, hn, httl, hnext, hsize, hknd, hend, ?_, ?_, ?_, hpoolnd⟩
  · simp [hb1len]
  · -- items side
    intro p hp
    obtain ⟨h1, h2, h3, h4⟩ := hitems p hp
    by_cases hpe : p.2 = eid
    · have hp1 : p.1 = old.key := heidkey p hp hpe
      refine ⟨by rw [heap3len]; exact h1, ?_, ?_, ?_⟩
      · rw [hpe, hentry3self, hp1]
      · rw [hpe, hentry3self]
        exact hbidx
      · rw [hpe, hentry3self]
        show alookup ((bks1.set b _).getD b default).entries p.1 = some eid
        rw [getD_set_self _ _ _ _ (by rw [hb1len]; exact hbidx)]
        have hthis : alookup (ainsert baseB old.key eid) p.1 = some eid := by
          rw [hp1]
          exact alookup_ainsert_self _ _ _
        split <;> exact hthis
    · have hp1 : p.1 ≠ old.key := by
        intro hc
        apply hpe
        have : alookup s.items p.1 = some p.2 := mem_alookup _ _ _ hknd hp
        rw [hc] at this
        exact Option.some.inj (this.symm.trans hKitems)
      refine ⟨by rw [heap3len]; exact h1, by rw [hentry3ne _ hpe]; exact h2,
        by rw [hentry3ne _ hpe]; exact h3, ?_⟩
      rw [hentry3ne _ hpe]
      by_cases hjb : (s.heap.getD p.2 default).bucket = b
      · rw [hjb]
        show alookup ((bks1.set b _).getD b default).entries p.1 = some p.2
        rw [getD_set_self _ _ _ _ (by rw [hb1len]; exact hbidx)]
        have : alookup (ainsert baseB old.key eid) p.1 = some p.2 := by
          rw [alookup_ainsert_ne _ _ _ _ hp1, hbaseB_eq]
          by_cases hob : b = old.bucket
          · rw [if_pos hob, alookup_aerase_ne _ _ _ hp1, holdBk]
            rw [hob] at hjb
            rw [← hjb]
            exact h4
          · rw [if_neg hob, ← hjb]
            exact h4
        split <;> exact this
      · show alookup ((bks1.set b _).getD
          (s.heap.getD p.2 default).bucket default).entries p.1 = some p.2
        rw [getD_set_ne _ _ _ _ _ hjb, hbks1]
        by_cases hob : (s.heap.getD p.2 default).bucket = old.bucket
        · rw [hob, getD_set_self _ _ _ _ (by rw [hblen]; exact hebuck)]
          show alookup (aerase oldBk.entries old.key) p.1 = some p.2
          rw [alookup_aerase_ne _ _ _ hp1, holdBk, ← hob]
          exact h4
        · rw [getD_set_ne _ _ _ _ _ hob]
          exact h4
  · -- bucket side
    intro j hj
    by_cases hjb : j = b
    · constructor
      · show (akeys ((bks1.set b _).getD j default).entries).Nodup
        rw [hjb, getD_set_self _ _ _ _ (by rw [hb1len]; exact hbidx)]
        have hthis : (akeys (ainsert baseB old.key eid)).Nodup :=
          akeys_nodup_ainsert _ _ _ hbaseB_nd
        split <;> exact hthis
      · intro q hq
        rw [hjb, getD_set_self _ _ _ _ (by rw [hb1len]; exact hbidx)] at hq
        have hq' : q ∈ ainsert baseB old.key eid := by
          revert hq
          split <;> exact fun h => h
        rcases (mem_ainsert _ _ _ _ hbaseB_nd).mp hq' with rfl | ⟨hqm, hqne⟩
        · refine ⟨hKitems, ?_⟩
          rw [hentry3self, hjb]
        · have hqorig : q ∈ (s.buckets.getD b default).entries := by
            rcases hbaseB_mem q hqm with ⟨hm, _⟩ | hm <;> exact hm
          obtain ⟨hq1, hq2⟩ := (hbuckets b hbidx).2 q hqorig
          have hqe : q.2 ≠ eid := by
            intro hc
            exact hqne (heidkey q (alookup_mem _ _ _ hq1) hc)
          refine ⟨hq1, ?_⟩
          rw [hentry3ne _ hqe, hjb]
          exact hq2
    · constructor
      · show (akeys ((bks1.set b _).getD j default).entries).Nodup
        rw [getD_set_ne _ _ _ _ _ hjb, hbks1]
        by_cases hob : j = old.bucket
        · rw [hob, getD_set_self _ _ _ _ (by rw [hblen]; exact hebuck)]
          exact akeys_nodup_aerase _ _ (hbuckets old.bucket hebuck).1
        · rw [getD_set_ne _ _ _ _ _ hob]
          exact (hbuckets j hj).1
      · intro q hq
        rw [getD_set_ne _ _ _ _ _ hjb, hbks1] at hq
        by_cases hob : j = old.bucket
        · rw [hob, getD_set_self _ _ _ _ (by rw [hblen]; exact hebuck)] at hq
          obtain ⟨hqm, hqne⟩ := (mem_aerase _ _ _).mp hq
          obtain ⟨hq1, hq2⟩ := (hbuckets old.bucket hebuck).2 q hqm
          have hqe : q.2 ≠ eid := by
            intro hc
            exact hqne (heidkey q (alookup_mem _ _ _ hq1) hc)
          exact ⟨hq1, by rw [hentry3ne _ hqe, hob]; exact hq2⟩
        · rw [getD_set_ne _ _ _ _ _ hob] at hq
          obtain ⟨hq1, hq2⟩ := (hbuckets j hj).2 q hq
          have hqe : q.2 ≠ eid := by
            intro hc
            rw [hc] at hq2
            exact hob (by rw [← hq2])
          exact ⟨hq1, by rw [hentry3ne _ hqe]; exact hq2⟩
  · intro x hx
    obtain ⟨hx1, hx2⟩ := hpool x hx
    exact ⟨by rw [heap3len]; exact hx1, hx2⟩

/-- A store whose heap was written at a slot referenced by no item, with
`items` and `buckets` untouched, keeps the invariant (the error path of a
fetch for a new key). -/
theorem StoreInv_heap_dirty (s : ExpirableStore) (hInv : StoreInv s)
    (eid : Nat) (E : EntryData) (heap1 : List EntryData) (pool1 : List Nat)
    (stop1 : Bool)
    (hheq : ∀ x, x ≠ eid → heap1.getD x default = s.heap.getD x default)
    (hlen : s.heap.length ≤ heap1.length)
    (heidnotin : eid ∉ s.items.map Prod.snd)
    (hpool1 : ∀ e ∈ pool1, e < heap1.length ∧ e ∉ s.items.map Prod.snd)
    (hpool1nd : pool1.Nodup) :
    StoreInv { maxSize := s.maxSize, items := s.items, buckets := s.buckets,
               bucketTTL := s.bucketTTL, numberBuckets := s.numberBuckets,
               nextBucketToExpire := s.nextBucketToExpire, pool := pool1,
               heap := heap1.set eid E, stopped := stop1 } := by
  obtain ⟨hblen, hn, httl, hnext, hsize, hknd, hend, hitems, hbuckets, hpool,
    hpoolnd⟩ := hInv
  simp only [ExpirableStore.entryAt, ExpirableStore.bucketAt]
    at hitems hbuckets
  have hset : ∀ x, x ≠ eid →
      (heap1.set eid E).getD x default = s.heap.getD x default := by
    intro x hx
    rw [getD_set_ne _ _ _ _ _ hx]
    exact hheq x hx
  simp only [StoreInv, ExpirableStore.entryAt, ExpirableStore.bucketAt]
  refine ⟨hblen, hn, httl, hnext, hsize, hknd, hend, ?_, ?_, ?_, hpool1nd⟩
  · intro p hp
    obtain ⟨h1, h2, h3, h4⟩ := hitems p hp
    have hpe : p.2 ≠ eid := by
      intro hc
      exact heidnotin (hc ▸ List.mem_map_of_mem Prod.snd hp)
    exact ⟨by simp only [List.length_set]; omega,
      by rw [hset _ hpe]; exact h2,
      by rw [hset _ hpe]; exact h3,
      by rw [hset _ hpe]; exact h4⟩
  · intro j hj
    obtain ⟨hjnd, hjmem⟩ := hbuckets j hj
    refine ⟨hjnd, ?_⟩
    intro q hq
    obtain ⟨hq1, hq2⟩ := hjmem q hq
    have hqe : q.2 ≠ eid := by
      intro hc
      exact heidnotin (hc ▸ List.mem_map_of_mem Prod.snd
        (alookup_mem _ _ _ hq1))
    exact ⟨hq1, by rw [hset _ hqe]; exact hq2⟩
  · intro x hx
    obtain ⟨hx1, hx2⟩ := hpool1 x hx
    exact ⟨by simp only [List.length_set]; omega, hx2⟩

/-- Admitting a new entry under a fresh key into a non-full store
preserves the invariant (the success path of a fetch for a new key). -/
theorem StoreInv_insert_new (s : ExpirableStore) (hInv : StoreInv s)
    (K : String) (eid : Nat) (qnew : Quota) (b : Nat)
    (heap1 : List EntryData) (pool1 : List Nat) (stop1 : Bool)
    (hkeyn : alookup s.items K = none)
    (hnotfull : s.items.length < s.maxSize)
    (hb : b < s.numberBuckets)
    (hheq : ∀ x, x ≠ eid → heap1.getD x default = s.heap.getD x default)
    (hlen : s.heap.length ≤ heap1.length)
    (heidlt : eid < heap1.length)
    (heidnotin : eid ∉ s.items.map Prod.snd)
    (hpool1 : ∀ e ∈ pool1, e < heap1.length ∧ e ∉ s.items.map Prod.snd ∧
      e ≠ eid)
    (hpool1nd : pool1.Nodup) :
    StoreInv { maxSize := s.maxSize, items := ainsert s.items K eid,
               buckets := s.buckets.set b
                 (if (s.buckets.getD b default).expiresAt < qnew.expiresAt then
                   ⟨ainsert (s.buckets.getD b default).entries K eid,
                     qnew.expiresAt⟩
                 else ⟨ainsert (s.buckets.getD b default).entries K eid,
                   (s.buckets.getD b default).expiresAt⟩),
               bucketTTL := s.bucketTTL, numberBuckets := s.numberBuckets,
               nextBucketToExpire := s.nextBucketToExpire, pool := pool1,
               heap := heap1.set eid ⟨K, qnew, b⟩, stopped := stop1 } := by
  obtain ⟨hblen, hn, httl, hnext, hsize, hknd, hend, hitems, hbuckets, hpool,
    hpoolnd⟩ := hInv
  simp only [ExpirableStore.entryAt, ExpirableStore.bucketAt]
    at hitems hbuckets
  have hKnotmem : K ∉ akeys s.items := by
    intro hc
    have := alookup_isSome_of_mem_akeys _ _ hc
    rw [hkeyn] at this
    simp at this
  have hitems' : ainsert s.items K eid = s.items ++ [(K, eid)] :=
    ainsert_of_none _ _ _ hkeyn
  have hsnds' : (ainsert s.items K eid).map Prod.snd =
      s.items.map Prod.snd ++ [eid] := by
    rw [hitems']; simp
  have hset_self : (heap1.set eid (⟨K, qnew, b⟩ : EntryData)).getD eid default
      = ⟨K, qnew, b⟩ := getD_set_self _ _ _ _ heidlt
  have hset_ne : ∀ x, x ≠ eid →
      (heap1.set eid (⟨K, qnew, b⟩ : EntryData)).getD x default =
        s.heap.getD x default := by
    intro x hx
    rw [getD_set_ne _ _ _ _ _ hx]
    exact hheq x hx
  have hbase_none : alookup (s.buckets.getD b default).entries K = none := by
    rcases hlk : alookup (s.buckets.getD b default).entries K with _ | v
    · rfl
    · obtain ⟨hv1, _⟩ := (hbuckets b hb).2 _ (alookup_mem _ _ _ hlk)
      rw [hkeyn] at hv1
      simp at hv1
  have hmem_base_ne : ∀ q, q ∈ (s.buckets.getD b default).entries →
      q.1 ≠ K := by
    intro q hq hc
    obtain ⟨hv1, _⟩ := (hbuckets b hb).2 q hq
    rw [hc, hkeyn] at hv1
    simp at hv1
  have hitem_ne_eid : ∀ p : String × Nat, p ∈ s.items → p.2 ≠ eid := by
    intro p hp hc
    exact heidnotin (hc ▸ List.mem_map_of_mem Prod.snd hp)
  simp only [StoreInv, ExpirableStore.entryAt, ExpirableStore.bucketAt]
  refine ⟨by simpa using hblen, hn, httl, hnext, ?_, ?_, ?_, ?_, ?_, ?_,
    hpool1nd⟩
  · rw [length_ainsert_of_none _ _ _ hkeyn]
    omega
  · rw [show akeys (ainsert s.items K eid) = akeys s.items ++ [K] from
      akeys_ainsert _ _ _ hkeyn]
    simp [List.nodup_append, hknd, hKnotmem]
  · rw [hsnds']
    simp [List.nodup_append, hend, heidnotin]
  · intro p hp
    rcases (mem_ainsert _ _ _ _ hknd).mp hp with rfl | ⟨hpmem, hpne⟩
    · refine ⟨by simp only [List.length_set]; omega, ?_, ?_, ?_⟩
      · rw [hset_self]
      · rw [hset_self]
        exact hb
      · rw [hset_self]
        show alookup ((s.buckets.set b _).getD b default).entries K = some eid
        rw [getD_set_self _ _ _ _ (by rw [hblen]; exact hb)]
        have hthis : alookup (ainsert (s.buckets.getD b default).entries K eid)
            K = some eid := alookup_ainsert_self _ _ _
        split <;> exact hthis
    · obtain ⟨h1, h2, h3, h4⟩ := hitems p hpmem
      have hpe : p.2 ≠ eid := hitem_ne_eid p hpmem
      refine ⟨by simp only [List.length_set]; omega, ?_, ?_, ?_⟩
      · rw [hset_ne _ hpe]
        exact h2
      · rw [hset_ne _ hpe]
        exact h3
      · rw [hset_ne _ hpe]
        by_cases hjb : (s.heap.getD p.2 default).bucket = b
        · rw [hjb]
          show alookup ((s.buckets.set b _).getD b default).entries p.1 =
            some p.2
          rw [getD_set_self _ _ _ _ (by rw [hblen]; exact hb)]
          have hthis : alookup (ainsert (s.buckets.getD b default).entries
              K eid) p.1 = some p.2 := by
            rw [alookup_ainsert_ne _ _ _ _ hpne, ← hjb]
            exact h4
          split <;> exact hthis
        · show alookup ((s.buckets.set b _).getD
            (s.heap.getD p.2 default).bucket default).entries p.1 = some p.2
          rw [getD_set_ne _ _ _ _ _ hjb]
          exact h4
  · intro j hj
    by_cases hjb : j = b
    · constructor
      · show (akeys ((s.buckets.set b _).getD j default).entries).Nodup
        rw [hjb, getD_set_self _ _ _ _ (by rw [hblen]; exact hb)]
        have hthis : (akeys (ainsert (s.buckets.getD b default).entries
            K eid)).Nodup := akeys_nodup_ainsert _ _ _ (hbuckets b hb).1
        split <;> exact hthis
      · intro q hq
        rw [hjb, getD_set_self _ _ _ _ (by rw [hblen]; exact hb)] at hq
        have hq' : q ∈ ainsert (s.buckets.getD b default).entries K eid := by
          revert hq
          split <;> exact fun h => h
        rcases (mem_ainsert _ _ _ _ (hbuckets b hb).1).mp hq'
          with rfl | ⟨hqm, hqne⟩
        · refine ⟨alookup_ainsert_self _ _ _, ?_⟩
          rw [hset_self, hjb]
        · obtain ⟨hq1, hq2⟩ := (hbuckets b hb).2 q hqm
          have hqe : q.2 ≠ eid := hitem_ne_eid q (alookup_mem _ _ _ hq1)
          refine ⟨by rw [alookup_ainsert_ne _ _ _ _ hqne]; exact hq1, ?_⟩
          rw [hset_ne _ hqe, hjb]
          exact hq2
    · obtain ⟨hjnd, hjmem⟩ := hbuckets j hj
      constructor
      · show (akeys ((s.buckets.set b _).getD j default).entries).Nodup
        rw [getD_set_ne _ _ _ _ _ hjb]
        exact hjnd
      · intro q hq
        rw [getD_set_ne _ _ _ _ _ hjb] at hq
        obtain ⟨hq1, hq2⟩ := hjmem q hq
        have hqne : q.1 ≠ K := by
          intro hc
          rw [hc, hkeyn] at hq1
          simp at hq1
        have hqe : q.2 ≠ eid := hitem_ne_eid q (alookup_mem _ _ _ hq1)
        refine ⟨by rw [alookup_ainsert_ne _ _ _ _ hqne]; exact hq1, ?_⟩
        rw [hset_ne _ hqe]
        exact hq2
  · intro x hx
    obtain ⟨hx1, hx2, hx3⟩ := hpool1 x hx
    refine ⟨by simp only [List.length_set]; omega, ?_⟩
    rw [hsnds']
    simp [hx2, hx3]

theorem getD_append_self {α : Type} (l : List α) (x d : α) :
    (l ++ [x]).getD l.length d = x := by
  simp [List.getD_eq_getElem?_getD,
    List.getElem?_append_right (le_refl l.length)]

theorem getD_of_le {α : Type} (l : List α) (i : Nat) (d : α)
    (h : l.length ≤ i) : l.getD i d = d := by
  simp [List.getD_eq_getElem?_getD, List.getElem?_eq_none h]

/-- A fetch for a key not in the store preserves the store invariant, on
both the admission path and the LimiterFull path, whether the entry comes
from the pool or is freshly allocated. -/
theorem StoreInv_fetch_new (s : ExpirableStore) (now : Int) (id : String)
    (limit : Limit) (hInv : StoreInv s) (hstop : s.stopped = false)
    (hkey : alookup s.items
      (getKey [limit.resource, limit.action, limit.per, id]) = none) :
    StoreInv (s.fetch now id limit).2 := by
  have hInvParts := hInv
  obtain ⟨hblen, hn, httl, hnext, hsize, hknd, hend, hitems, hbuckets, hpool,
    hpoolnd⟩ := hInvParts
  have hitem_lt : ∀ p : String × Nat, p ∈ s.items → p.2 < s.heap.length :=
    fun p hp => ((hitems p hp)).1
  have hb := goBucketIndex_lt limit.period s.bucketTTL s.nextBucketToExpire
    s.numberBuckets hn
  rcases hp : s.pool with _ | ⟨eid, rest⟩
  · -- pool empty: fresh allocation at the end of the heap
    have hfreshnotin : s.heap.length ∉ s.items.map Prod.snd := by
      intro hc
      obtain ⟨p, hpmem, hpsnd⟩ := List.mem_map.mp hc
      have := hitem_lt p hpmem
      omega
    have hheq : ∀ x, x ≠ s.heap.length →
        (s.heap ++ [(default : EntryData)]).getD x default =
          s.heap.getD x default := by
      intro x hx
      rcases Nat.lt_or_ge x s.heap.length with hlt | hge
      · exact getD_append_left _ _ _ _ hlt
      · have hgt : s.heap.length < x := by omega
        rw [getD_of_le _ _ _ (by simpa using hgt),
          getD_of_le _ _ _ (by omega)]
    simp only [ExpirableStore.fetch, hstop, Bool.false_eq_true, if_false,
      hkey, ExpirableStore.poolGet, hp, ExpirableStore.heapSet,
      ExpirableStore.add, ExpirableStore.entryAt, Quota.reset]
    rw [getD_append_self]
    by_cases hfull : s.maxSize ≤ s.items.length
    · rw [getD_set_self _ _ _ _ (by simp), if_pos ⟨hkey, hfull⟩]
      exact StoreInv_heap_dirty s hInv s.heap.length _ _ _ _ hheq
        (by simp) hfreshnotin
        (by
          intro e he
          simp only [List.mem_singleton] at he
          subst he
          exact ⟨by simp, hfreshnotin⟩)
        (List.nodup_singleton _)
    · rw [getD_set_self _ _ _ _ (by simp), if_neg (fun hc => hfull hc.2)]
      simp only [ExpirableStore.addToBucket, ExpirableStore.heapSet,
        ExpirableStore.entryAt, ExpirableStore.bucketAt]
      rw [getD_set_self _ _ _ _ (by simp), List.set_set]
      exact StoreInv_insert_new s hInv _ s.heap.length
        ⟨limit, 0, now + limit.period⟩ _ _ _ _ hkey (by omega) hb hheq
        (by simp) (by simp) hfreshnotin (by simp) List.nodup_nil
  · -- pooled entry
    obtain ⟨heidlt, heidnotin⟩ :=
      hpool eid (by rw [hp]; exact List.mem_cons_self _ _)
    have hrest : ∀ e ∈ rest, e < s.heap.length ∧ e ∉ s.items.map Prod.snd :=
      fun e he => hpool e (by rw [hp]; exact List.mem_cons_of_mem _ he)
    have hrestnd : rest.Nodup ∧ eid ∉ rest := by
      have := hpoolnd
      rw [hp, List.nodup_cons] at this
      exact ⟨this.2, this.1⟩
    simp only [ExpirableStore.fetch, hstop, Bool.false_eq_true, if_false,
      hkey, ExpirableStore.poolGet, hp, ExpirableStore.heapSet,
      ExpirableStore.add, ExpirableStore.entryAt, Quota.reset]
    rw [getD_set_self _ _ _ _ heidlt]
    simp only []
    by_cases hfull : s.maxSize ≤ s.items.length
    · rw [if_pos ⟨hkey, hfull⟩]
      exact StoreInv_heap_dirty s hInv eid _ _ _ _ (fun x _ => rfl)
        (le_refl _) heidnotin
        (by
          intro e he
          rcases List.mem_cons.mp he with rfl | he'
          · exact ⟨heidlt, heidnotin⟩
          · exact hrest e he')
        (by rw [← hp]; exact hpoolnd)
    · rw [if_neg (fun hc => hfull hc.2)]
      simp only [ExpirableStore.addToBucket, ExpirableStore.heapSet,
        ExpirableStore.entryAt, ExpirableStore.bucketAt]
      rw [getD_set_self _ _ _ _ (by simpa using heidlt), List.set_set]
      exact StoreInv_insert_new s hInv _ eid ⟨limit, 0, now + limit.period⟩
        _ _ _ _ hkey (by omega) hb (fun x _ => rfl) (le_refl _) heidlt
        heidnotin
        (fun e he => ⟨(hrest e he).1, (hrest e he).2,
          fun hc => hrestnd.2 (hc ▸ he)⟩)
        hrestnd.1

/-- Every fetch preserves the store invariant. -/
theorem StoreInv_fetch (s : ExpirableStore) (now : Int) (id : String)
    (limit : Limit) (hInv : StoreInv s) :
    StoreInv (s.fetch now id limit).2 := by
  rcases hstop : s.stopped with _ | _
  · rcases hkey : alookup s.items
      (getKey [limit.resource, limit.action, limit.per, id]) with _ | eid
    · exact StoreInv_fetch_new s now id limit hInv hstop hkey
    · rcases hexp : (s.entryAt eid).value.Expired now with _ | _
      · rw [fetch_live_unchanged s now id limit hstop eid hkey hexp]
        exact hInv
      · exact StoreInv_fetch_expired s now id limit hInv hstop eid hkey hexp
  · simp only [ExpirableStore.fetch, hstop, if_true]
    exact hInv

/-- The sum of the bucket sizes of a store. -/
def bucketsEntriesSum (s : ExpirableStore) : Nat :=
  ((List.range s.numberBuckets).map
    (fun j => (s.bucketAt j).entries.length)).sum

/-- Under the invariant, `|items|` equals the sum over all buckets of
`|bucket.entries|`. -/
theorem items_length_eq_bucketsEntriesSum (s : ExpirableStore)
    (hInv : StoreInv s) : s.items.length = bucketsEntriesSum s := by
  obtain ⟨hblen, hn, httl, hnext, hsize, hknd, hend, hitems, hbuckets, hpool,
    hpoolnd⟩ := hInv
  set L := (List.range s.numberBuckets).map (fun j => (s.bucketAt j).entries)
    with hL
  have hsum : bucketsEntriesSum s = L.flatten.length := by
    rw [List.length_flatten, hL, List.map_map]
    rfl
  have hLnodup : L.flatten.Nodup := by
    rw [List.nodup_flatten]
    constructor
    · intro x hx
      rw [hL] at hx
      obtain ⟨j, hj, rfl⟩ := List.mem_map.mp hx
      rw [List.mem_range] at hj
      exact ((hbuckets j hj).1).of_map Prod.fst
    · rw [hL]
      refine List.Pairwise.map _ ?_ (List.pairwise_lt_range s.numberBuckets)
      intro a b hab
      intro x hxa hxb
      have ha : a < s.numberBuckets := by
        by_contra hc
        have : (s.bucketAt a).entries = [] := by
          unfold ExpirableStore.bucketAt
          rw [getD_of_le _ _ _ (by omega)]
          rfl
        rw [this] at hxa
        simp at hxa
      have hbn : b < s.numberBuckets := by
        by_contra hc
        have : (s.bucketAt b).entries = [] := by
          unfold ExpirableStore.bucketAt
          rw [getD_of_le _ _ _ (by omega)]
          rfl
        rw [this] at hxb
        simp at hxb
      have h1 := ((hbuckets a ha).2 x hxa).2
      have h2 := ((hbuckets b hbn).2 x hxb).2
      omega
  have hitemsnd : s.items.Nodup := hknd.of_map Prod.fst
  have hext : ∀ x, x ∈ L.flatten ↔ x ∈ s.items := by
    intro x
    constructor
    · intro hx
      obtain ⟨t, ht, hxt⟩ := List.mem_flatten.mp hx
      rw [hL] at ht
      obtain ⟨j, hj, rfl⟩ := List.mem_map.mp ht
      rw [List.mem_range] at hj
      exact alookup_mem _ _ _ ((hbuckets j hj).2 x hxt).1
    · intro hx
      obtain ⟨h1, h2, h3, h4⟩ := hitems x hx
      refine List.mem_flatten.mpr ⟨(s.bucketAt (s.entryAt x.2).bucket).entries,
        ?_, alookup_mem _ _ _ h4⟩
      rw [hL]
      exact List.mem_map.mpr ⟨(s.entryAt x.2).bucket,
        List.mem_range.mpr h3, rfl⟩
  have hperm : L.flatten.Perm s.items :=
    (List.perm_ext_iff_of_nodup hLnodup hitemsnd).mpr hext
  rw [hsum, hperm.length_eq]

instance storeInvDecidable (s : ExpirableStore) : Decidable (StoreInv s) := by
  unfold StoreInv
  infer_instance

/-! ### The C5 claim -/

/-- C5: under the coherence invariant, `|items| = Σ_j |bucket_j.entries|`
and `|items| ≤ max_size`; and every store operation — a fetch (new key,
expired key, live key, or full-store failure all included) and the
reclamation sweep — preserves the invariant. -/
theorem C5_items_buckets_invariant (s : ExpirableStore) (hInv : StoreInv s) :
    (s.items.length = bucketsEntriesSum s ∧ s.items.length ≤ s.maxSize) ∧
    (∀ (now : Int) (id : String) (limit : Limit),
      StoreInv (s.fetch now id limit).2) ∧
    StoreInv s.emptyExpiredBucket :=
  ⟨⟨items_length_eq_bucketsEntriesSum s hInv,
    hInv.2.2.2.2.1⟩,
   fun now id limit => StoreInv_fetch s now id limit hInv,
   StoreInv_emptyExpiredBucket s hInv⟩

/-- Witness for C5 on the one-slot store built by two fetches. -/
theorem C5_items_buckets_invariant_witness :
    StoreInv c6Store ∧
    (c6Store.items.length = bucketsEntriesSum c6Store ∧
      c6Store.items.length ≤ c6Store.maxSize) ∧
    StoreInv c6Store.emptyExpiredBucket := by
  have h := C5_items_buckets_invariant c6Store (by decide)
  exact ⟨by decide, h.1, h.2.2⟩

/-! ## The limiter facade (src/limiter.go)

`Allow` iterates over the Go map `keys` (one entry per dimension) to fetch
quotas, then walks `allowOrder` to consume them and pick the reported
quota.  Go leaves the iteration order of a map range loop unspecified, so
the model takes the order as an explicit parameter ranging over the
permutations of the key set; `allowOrder`, used by the consume loop only,
is the fixed list below. -/

/-- `allowOrder` from src/limiter.go. -/
def allowOrder : List String :=
  [LimitPerTotal, LimitPerIPAddress, LimitPerAuthToken]

/-- The `keys` map of `Allow`: the total dimension uses the literal id
`"total"`, the others the request's ip and auth token. -/
def allowId (ip authToken : String) (per : String) : String :=
  if per = LimitPerTotal then "total"
  else if per = LimitPerIPAddress then ip
  else authToken

/-- The outcome of the fetch loop of `Allow`: an error return, a denial on
an exhausted quota, or completion with the fetched quota per dimension.
The trace records the dimensions whose quota was fetched, in order. -/
inductive LoopOut where
  | failed (e : RateErr) (s : ExpirableStore) (trace : List String)
  | denied (eid : Nat) (s : ExpirableStore) (trace : List String)
  | completed (quotas : List (String × Nat)) (s : ExpirableStore)
      (trace : List String)
deriving DecidableEq

/-- The fetch loop of `Allow` (src/limiter.go): for each dimension in the
map iteration order, look up the policy and its limit for that dimension,
fetch the quota, and stop with a denial as soon as a fetched quota has
`Remaining() <= 0`; fetch errors propagate. -/
def allowFetchLoop (policies : List (String × List (String × Limit)))
    (resource action ip authToken : String) (now : Int) :
    List String → List (String × Nat) → ExpirableStore → List String →
      LoopOut
  | [], quotas, s, tr => .completed quotas s tr
  | per :: rest, quotas, s, tr =>
    match alookup policies (getKey [resource, action]) with
    | none => .failed .limitPolicyNotFound s tr
    | some pol =>
      match alookup pol per with
      | none => .failed .limitNotFound s tr
      | some limit =>
        match s.fetch now (allowId ip authToken per) limit with
        | (.error e, s') => .failed e s' (tr ++ [per])
        | (.ok eid, s') =>
          if (s'.entryAt eid).value.Remaining = 0 then
            .denied eid s' (tr ++ [per])
          else
            allowFetchLoop policies resource action ip authToken now rest
              (ainsert quotas per eid) s' (tr ++ [per])

/-- `q.Consume()` through the stored entry pointer. -/
def ExpirableStore.consumeAt (s : ExpirableStore) (eid : Nat) :
    ExpirableStore :=
  s.heapSet eid
    { s.entryAt eid with value := (s.entryAt eid).value.Consume }

/-- The consume loop of `Allow`: walks `allowOrder`, consumes each
dimension's quota, and keeps the quota with the strictly smallest live
`Remaining()` (so the earliest dimension wins ties).  `none` models the
nil-pointer panic Go would hit if a dimension were missing from the
`quotas` map. -/
def consumeLoop (quotas : List (String × Nat)) :
    List String → Option Nat → ExpirableStore →
      Option (Option Nat × ExpirableStore)
  | [], best, s => some (best, s)
  | per :: rest, best, s =>
    match alookup quotas per with
    | none => none
    | some eid =>
      let s' := s.consumeAt eid
      let best' := match best with
        | none => some eid
        | some bid =>
          if (s'.entryAt eid).value.Remaining <
              (s'.entryAt bid).value.Remaining then some eid
          else some bid
      consumeLoop quotas rest best' s'

/-- `Allow` from src/limiter.go, parameterised by the iteration order of
the `keys` map (a permutation of `allowOrder` in any real execution).
Returns `(allowed, quota, err)` with the quota as an entry pointer,
together with the store and the fetch trace; `none` is the nil-map-entry
panic of the consume loop, unreachable when the order is a permutation of
the three dimensions. -/
def allowWithOrder (policies : List (String × List (String × Limit)))
    (resource action ip authToken : String) (now : Int)
    (order : List String) (s : ExpirableStore) :
    Option ((Bool × Option Nat × Option RateErr) ×
      ExpirableStore × List String) :=
  match allowFetchLoop policies resource action ip authToken now order [] s
    [] with
  | .failed e s' tr => some ((false, none, some e), s', tr)
  | .denied eid s' tr => some ((false, some eid, none), s', tr)
  | .completed quotas s' tr =>
    match consumeLoop quotas allowOrder none s' with
    | none => none
    | some (best, s'') => some ((true, best, none), s'', tr)

/-- A fetch that resets an expired quota leaves every other heap entry
untouched. -/
theorem fetch_expired_entryAt_ne (s : ExpirableStore) (now : Int)
    (id : String) (limit : Limit) (hstop : s.stopped = false) (eid : Nat)
    (hkey : alookup s.items
      (getKey [limit.resource, limit.action, limit.per, id]) = some eid)
    (hexp : (s.entryAt eid).value.Expired now = true)
    (heid : eid < s.heap.length) :
    ∀ v, v ≠ eid → (s.fetch now id limit).2.entryAt v = s.entryAt v := by
  intro v hv
  have hexp' : (s.heap.getD eid default).value.Expired now = true := hexp
  simp only [ExpirableStore.fetch, hstop, Bool.false_eq_true, if_false, hkey,
    hexp', if_true, ExpirableStore.removeFromBucket, ExpirableStore.heapSet,
    ExpirableStore.addToBucket, ExpirableStore.entryAt,
    ExpirableStore.bucketAt, Quota.reset]
  rw [getD_set_self _ _ _ _ heid]
  simp only []
  rw [List.set_set, getD_set_ne _ _ _ _ _ hv]

/-- A successful fetch of a brand-new key: the key now maps to the fetched
entry, other keys and other heap slots are untouched, and the fetched
quota starts at `used = 0`. -/
theorem fetch_new_success_props (s : ExpirableStore) (now : Int)
    (id : String) (limit : Limit) (hInv : StoreInv s)
    (hstop : s.stopped = false)
    (hkey : alookup s.items
      (getKey [limit.resource, limit.action, limit.per, id]) = none)
    (hnotfull : s.items.length < s.maxSize) :
    ∃ eid, (s.fetch now id limit).1 = .ok eid ∧
      alookup (s.fetch now id limit).2.items
        (getKey [limit.resource, limit.action, limit.per, id]) = some eid ∧
      (∀ k, k ≠ getKey [limit.resource, limit.action, limit.per, id] →
        alookup (s.fetch now id limit).2.items k = alookup s.items k) ∧
      (∀ v, v ≠ eid → (s.fetch now id limit).2.entryAt v = s.entryAt v) ∧
      ((s.fetch now id limit).2.entryAt eid).value.used = 0 := by
  obtain ⟨hblen, hn, httl, hnext, hsize, hknd, hend, hitems, hbuckets, hpool,
    hpoolnd⟩ := hInv
  have hcond : ¬(alookup s.items
      (getKey [limit.resource, limit.action, limit.per, id]) = none ∧
      s.maxSize ≤ s.items.length) := by
    intro hc
    omega
  rcases hp : s.pool with _ | ⟨eid, rest⟩
  · refine ⟨s.heap.length, ?_⟩
    have hheq : ∀ x, x ≠ s.heap.length →
        (s.heap ++ [(default : EntryData)]).getD x default =
          s.heap.getD x default := by
      intro x hx
      rcases Nat.lt_or_ge x s.heap.length with hlt | hge
      · exact getD_append_left _ _ _ _ hlt
      · have hgt : s.heap.length < x := by omega
        rw [getD_of_le _ _ _ (by simpa using hgt),
          getD_of_le _ _ _ (by omega)]
    simp only [ExpirableStore.fetch, hstop, Bool.false_eq_true, if_false,
      hkey, ExpirableStore.poolGet, hp, ExpirableStore.heapSet,
      ExpirableStore.add, ExpirableStore.entryAt, Quota.reset]
    rw [getD_append_self]
    rw [getD_set_self _ _ _ _ (by simp), if_neg hcond]
    simp only [ExpirableStore.addToBucket, ExpirableStore.heapSet,
      ExpirableStore.entryAt, ExpirableStore.bucketAt]
    rw [getD_set_self _ _ _ _ (by simp), List.set_set]
    refine ⟨trivial, alookup_ainsert_self _ _ _,
      fun k hk => alookup_ainsert_ne _ _ _ _ hk, ?_, ?_⟩
    · intro v hv
      show (((s.heap ++ [(default : EntryData)]).set s.heap.length _).getD v
        default) = s.heap.getD v default
      rw [getD_set_ne _ _ _ _ _ hv]
      exact hheq v hv
    · show (((s.heap ++ [(default : EntryData)]).set s.heap.length _).getD
        s.heap.length default).value.used = 0
      rw [getD_set_self _ _ _ _ (by simp)]
  · obtain ⟨heidlt, heidnotin⟩ :=
      hpool eid (by rw [hp]; exact List.mem_cons_self _ _)
    refine ⟨eid, ?_⟩
    simp only [ExpirableStore.fetch, hstop, Bool.false_eq_true, if_false,
      hkey, ExpirableStore.poolGet, hp, ExpirableStore.heapSet,
      ExpirableStore.add, ExpirableStore.entryAt, Quota.reset]
    rw [getD_set_self _ _ _ _ heidlt, if_neg hcond]
    simp only [ExpirableStore.addToBucket, ExpirableStore.heapSet,
      ExpirableStore.entryAt, ExpirableStore.bucketAt]
    rw [getD_set_self _ _ _ _ (by simpa using heidlt), List.set_set]
    refine ⟨trivial, alookup_ainsert_self _ _ _,
      fun k hk => alookup_ainsert_ne _ _ _ _ hk, ?_, ?_⟩
    · intro v hv
      show ((s.heap.set eid _).getD v default) = s.heap.getD v default
      rw [getD_set_ne _ _ _ _ _ hv]
    · show ((s.heap.set eid _).getD eid default).value.used = 0
      rw [getD_set_self _ _ _ _ heidlt]

/-- The failed fetch of a new key on a full store leaves every heap slot
referenced by an item untouched. -/
theorem fetch_full_entry_untouched (s : ExpirableStore) (now : Int)
    (id : String) (limit : Limit) (hInv : StoreInv s)
    (hstop : s.stopped = false)
    (hkey : alookup s.items
      (getKey [limit.resource, limit.action, limit.per, id]) = none)
    (hfull : s.maxSize ≤ s.items.length) :
    ∀ v, v ∈ s.items.map Prod.snd →
      (s.fetch now id limit).2.entryAt v = s.entryAt v := by
  obtain ⟨hblen, hn, httl, hnext, hsize, hknd, hend, hitems, hbuckets, hpool,
    hpoolnd⟩ := hInv
  intro v hvmem
  have hvlt : v < s.heap.length := by
    obtain ⟨p, hpmem, hpsnd⟩ := List.mem_map.mp hvmem
    have := (hitems p hpmem).1
    omega
  rcases hp : s.pool with _ | ⟨eid, rest⟩
  · have hv : v ≠ s.heap.length := by omega
    simp only [ExpirableStore.fetch, hstop, Bool.false_eq_true, if_false,
      hkey, ExpirableStore.poolGet, hp, ExpirableStore.heapSet,
      ExpirableStore.add, ExpirableStore.entryAt, Quota.reset]
    rw [getD_append_self]
    rw [getD_set_self _ _ _ _ (by simp), if_pos ⟨hkey, hfull⟩]
    show ((s.heap ++ [(default : EntryData)]).set s.heap.length _).getD v
      default = s.heap.getD v default
    rw [getD_set_ne _ _ _ _ _ hv]
    exact getD_append_left _ _ _ _ hvlt
  · obtain ⟨heidlt, heidnotin⟩ :=
      hpool eid (by rw [hp]; exact List.mem_cons_self _ _)
    have hv : v ≠ eid := by
      intro hc
      exact heidnotin (hc ▸ hvmem)
    simp only [ExpirableStore.fetch, hstop, Bool.false_eq_true, if_false,
      hkey, ExpirableStore.poolGet, hp, ExpirableStore.heapSet,
      ExpirableStore.add, ExpirableStore.entryAt, Quota.reset]
    rw [getD_set_self _ _ _ _ heidlt, if_pos ⟨hkey, hfull⟩]
    show (s.heap.set eid _).getD v default = s.heap.getD v default
    rw [getD_set_ne _ _ _ _ _ hv]

/-- The per-key effect of a fetch, as seen by `Allow`: a successful fetch
returns the entry now stored under the fetched key, changes no other key
and no other heap slot, and either leaves the whole store unchanged or
returns a quota with `used = 0`; a failed fetch leaves `items` and every
item's heap slot unchanged. -/
theorem fetch_step_props (s : ExpirableStore) (now : Int) (id : String)
    (limit : Limit) (hInv : StoreInv s) :
    (∀ eid, (s.fetch now id limit).1 = .ok eid →
      alookup (s.fetch now id limit).2.items
        (getKey [limit.resource, limit.action, limit.per, id]) = some eid ∧
      (∀ k, k ≠ getKey [limit.resource, limit.action, limit.per, id] →
        alookup (s.fetch now id limit).2.items k = alookup s.items k) ∧
      (∀ v, v ≠ eid → (s.fetch now id limit).2.entryAt v = s.entryAt v) ∧
      (((s.fetch now id limit).2.entryAt eid).value.used = 0 ∨
        (s.fetch now id limit).2 = s)) ∧
    (∀ e, (s.fetch now id limit).1 = .error e →
      (s.fetch now id limit).2.items = s.items ∧
      (∀ v, v ∈ s.items.map Prod.snd →
        (s.fetch now id limit).2.entryAt v = s.entryAt v)) := by
  have hInvKeep := hInv
  obtain ⟨hblen, hn, httl, hnext, hsize, hknd, hend, hitems, hbuckets, hpool,
    hpoolnd⟩ := hInvKeep
  rcases hstop : s.stopped with _ | _
  · rcases hkey : alookup s.items
      (getKey [limit.resource, limit.action, limit.per, id]) with _ | eid₀
    · rcases Nat.lt_or_ge s.items.length s.maxSize with hnotfull | hfull
      · obtain ⟨eid₁, hok, hlk, hne, hent, hused⟩ :=
          fetch_new_success_props s now id limit hInv hstop hkey hnotfull
        constructor
        · intro eid hok'
          have : eid₁ = eid := by
            rw [hok] at hok'
            exact Except.ok.inj hok'
          subst this
          exact ⟨hlk, hne, hent, Or.inl hused⟩
        · intro e herr
          rw [hok] at herr
          exact absurd herr (by simp)
      · have hflf := fetch_full_fails s now id limit hstop
          (fun e he => (hpool e he).1) hkey hfull
        constructor
        · intro eid hok'
          rw [hflf.1] at hok'
          exact absurd hok' (by simp)
        · intro e _
          exact ⟨hflf.2.1,
            fetch_full_entry_untouched s now id limit hInv hstop hkey hfull⟩
    · have heid₀ : eid₀ < s.heap.length :=
        (hitems _ (alookup_mem _ _ _ hkey)).1
      rcases hexp : (s.entryAt eid₀).value.Expired now with _ | _
      · have heq := fetch_live_unchanged s now id limit hstop eid₀ hkey hexp
        constructor
        · intro eid hok'
          rw [heq] at hok' ⊢
          obtain rfl := Except.ok.inj hok'
          exact ⟨hkey, fun k _ => rfl, fun v _ => rfl, Or.inr rfl⟩
        · intro e herr
          rw [heq] at herr
          exact absurd herr (by simp)
      · obtain ⟨hok, hitms, hent, _, _⟩ :=
          fetch_expired_resets s now id limit hstop eid₀ hkey hexp heid₀ hn
            hblen (hitems _ (alookup_mem _ _ _ hkey)).2.2.1
        constructor
        · intro eid hok'
          rw [hok] at hok'
          obtain rfl := Except.ok.inj hok'
          refine ⟨by rw [hitms]; exact hkey, fun k _ => by rw [hitms],
            fetch_expired_entryAt_ne s now id limit hstop eid₀ hkey hexp
              heid₀,
            Or.inl (by rw [hent])⟩
        · intro e herr
          rw [hok] at herr
          exact absurd herr (by simp)
  · have heq : s.fetch now id limit = (.error .stopped, s) := by
      simp [ExpirableStore.fetch, hstop]
    constructor
    · intro eid hok'
      rw [heq] at hok'
      exact absurd hok' (by simp)
    · intro e _
      rw [heq]
      exact ⟨rfl, fun v _ => rfl⟩

theorem allowFetchLoop_polNone {policies resource action ip authToken now
    per rest quotas s tr}
    (h : alookup policies (getKey [resource, action]) = none) :
    allowFetchLoop policies resource action ip authToken now (per :: rest)
      quotas s tr = .failed .limitPolicyNotFound s tr := by
  rw [allowFetchLoop, h]

theorem allowFetchLoop_limNone {policies resource action ip authToken now
    per rest quotas s tr pol}
    (hpol : alookup policies (getKey [resource, action]) = some pol)
    (hlim : alookup pol per = none) :
    allowFetchLoop policies resource action ip authToken now (per :: rest)
      quotas s tr = .failed .limitNotFound s tr := by
  rw [allowFetchLoop, hpol]
  simp only [hlim]

theorem allowFetchLoop_fetchErr {policies resource action ip authToken now
    per rest quotas s tr pol limit e s₂}
    (hpol : alookup policies (getKey [resource, action]) = some pol)
    (hlim : alookup pol per = some limit)
    (hf : s.fetch now (allowId ip authToken per) limit = (.error e, s₂)) :
    allowFetchLoop policies resource action ip authToken now (per :: rest)
      quotas s tr = .failed e s₂ (tr ++ [per]) := by
  rw [allowFetchLoop, hpol]
  simp only [hlim, hf]

theorem allowFetchLoop_denied {policies resource action ip authToken now
    per rest quotas s tr pol limit eid s₂}
    (hpol : alookup policies (getKey [resource, action]) = some pol)
    (hlim : alookup pol per = some limit)
    (hf : s.fetch now (allowId ip authToken per) limit = (.ok eid, s₂))
    (hrem : (s₂.entryAt eid).value.Remaining = 0) :
    allowFetchLoop policies resource action ip authToken now (per :: rest)
      quotas s tr = .denied eid s₂ (tr ++ [per]) := by
  rw [allowFetchLoop, hpol]
  simp only [hlim, hf, hrem, if_pos]

theorem allowFetchLoop_step {policies resource action ip authToken now
    per rest quotas s tr pol limit eid s₂}
    (hpol : alookup policies (getKey [resource, action]) = some pol)
    (hlim : alookup pol per = some limit)
    (hf : s.fetch now (allowId ip authToken per) limit = (.ok eid, s₂))
    (hrem : (s₂.entryAt eid).value.Remaining ≠ 0) :
    allowFetchLoop policies resource action ip authToken now (per :: rest)
      quotas s tr = allowFetchLoop policies resource action ip authToken now
        rest (ainsert quotas per eid) s₂ (tr ++ [per]) := by
  rw [allowFetchLoop, hpol]
  simp only [hlim, hf, hrem, if_neg, if_false]

/-- Every quota stored in `s1` has the used count a pure sequence of
fetches starting from `s0` can give it: zero (fresh or reset) or exactly
its pre-existing count in `s0` — never an incremented one. -/
def UsedAsFetched (s0 s1 : ExpirableStore) : Prop :=
  ∀ k v, alookup s1.items k = some v →
    (s1.entryAt v).value.used = 0 ∨
    ∃ v₀, alookup s0.items k = some v₀ ∧
      (s1.entryAt v).value.used = (s0.entryAt v₀).value.used

theorem UsedAsFetched_refl (s : ExpirableStore) : UsedAsFetched s s :=
  fun _ v hkv => Or.inr ⟨v, hkv, rfl⟩

/-- A fetch keeps the store in the fetches-only-used state. -/
theorem UsedAsFetched_fetch (s0 s1 : ExpirableStore) (now : Int)
    (id : String) (limit : Limit) (hInv1 : StoreInv s1)
    (hua : UsedAsFetched s0 s1) :
    UsedAsFetched s0 (s1.fetch now id limit).2 := by
  intro k v hkv
  obtain ⟨hok, herr⟩ := fetch_step_props s1 now id limit hInv1
  rcases hr : (s1.fetch now id limit).1 with e | eid
  · obtain ⟨hitms, hent⟩ := herr e hr
    rw [hitms] at hkv
    have hvmem : v ∈ s1.items.map Prod.snd :=
      List.mem_map_of_mem Prod.snd (alookup_mem _ _ _ hkv)
    rw [hent v hvmem]
    exact hua k v hkv
  · obtain ⟨hlk, hne, hent, hor⟩ := hok eid hr
    rcases hor with hused | hsame
    · by_cases hveid : v = eid
      · subst hveid
        exact Or.inl hused
      · rw [hent v hveid]
        have hkne : k ≠ getKey [limit.resource, limit.action, limit.per, id]
            := by
          intro hc
          rw [hc, hlk] at hkv
          exact hveid (Option.some.inj hkv).symm
        rw [hne k hkne] at hkv
        exact hua k v hkv
    · rw [hsame] at hkv ⊢
      exact hua k v hkv

/-- Through the fetch loop of `Allow`, no stored quota is ever consumed:
every outcome's store is still in the fetches-only-used state, the store
invariant is maintained, and a denial's reported quota is exhausted. -/
theorem allowFetchLoop_no_consume
    (policies : List (String × List (String × Limit)))
    (resource action ip authToken : String) (now : Int) :
    ∀ (order : List String) (quotas : List (String × Nat))
      (s : ExpirableStore) (tr : List String) (s0 : ExpirableStore),
      StoreInv s → UsedAsFetched s0 s →
      (match allowFetchLoop policies resource action ip authToken now order
          quotas s tr with
       | .failed _ s' _ => StoreInv s' ∧ UsedAsFetched s0 s'
       | .denied eid s' _ => StoreInv s' ∧ UsedAsFetched s0 s' ∧
           (s'.entryAt eid).value.Remaining = 0
       | .completed _ s' _ => StoreInv s' ∧ UsedAsFetched s0 s') := by
  intro order
  induction order with
  | nil =>
    intro quotas s tr s0 hInv hua
    exact ⟨hInv, hua⟩
  | cons per rest ih =>
    intro quotas s tr s0 hInv hua
    rcases hpol : alookup policies (getKey [resource, action]) with _ | pol
    · rw [allowFetchLoop_polNone hpol]
      exact ⟨hInv, hua⟩
    rcases hlim : alookup pol per with _ | limit
    · rw [allowFetchLoop_limNone hpol hlim]
      exact ⟨hInv, hua⟩
    rcases hr : s.fetch now (allowId ip authToken per) limit with ⟨r1, s₂⟩
    have hInv₂ : StoreInv s₂ := by
      have := StoreInv_fetch s now (allowId ip authToken per) limit hInv
      rw [hr] at this
      exact this
    have hua₂ : UsedAsFetched s0 s₂ := by
      have := UsedAsFetched_fetch s0 s now (allowId ip authToken per) limit
        hInv hua
      rw [hr] at this
      exact this
    rcases r1 with e | eid
    · rw [allowFetchLoop_fetchErr hpol hlim hr]
      exact ⟨hInv₂, hua₂⟩
    · by_cases hrem : (s₂.entryAt eid).value.Remaining = 0
      · rw [allowFetchLoop_denied hpol hlim hr hrem]
        exact ⟨hInv₂, hua₂, hrem⟩
      · rw [allowFetchLoop_step hpol hlim hr hrem]
        exact ih (ainsert quotas per eid) s₂ (tr ++ [per]) s0 hInv₂ hua₂

/-! ## Claim C1: the deny path consumes nothing -/

/-- Limit for the C1 witness: a total limit with `MaxRequests = 0`, whose
fresh quota already has `Remaining() = 0`. -/
def c1Limit : Limit := ⟨"r", "a", LimitPerTotal, false, 0, 60000000000⟩

/-- Policy map for the C1 witness: one resource:action policy holding the
exhausted total limit. -/
def c1Policies : List (String × List (String × Limit)) :=
  [(getKey ["r", "a"], [(LimitPerTotal, c1Limit)])]

/-- A fresh ten-slot store for the C1 witness. -/
def c1Store0 : ExpirableStore :=
  match newExpirableStore 10 60000000000 4 with
  | .ok s => s
  | _ => default

/-- The store after the denying call: the total quota has been fetched,
and nothing was consumed. -/
def c1DenyStore : ExpirableStore := (c1Store0.fetch 0 "total" c1Limit).2

/-- C1: whenever `Allow` (under any iteration order of the keys map)
denies because a fetched quota is exhausted — result
`(false, some quota, no error)` — the reported quota has `Remaining = 0`,
and no quota in the resulting store has had its used count incremented:
every stored used count is `0` (as a fetch leaves a fresh or reset quota)
or exactly the count the quota had before the call. -/
theorem C1_deny_consumes_nothing
    (policies : List (String × List (String × Limit)))
    (resource action ip authToken : String) (now : Int)
    (order : List String) (s : ExpirableStore) (hInv : StoreInv s)
    {eid : Nat} {s' : ExpirableStore} {tr : List String}
    (h : allowWithOrder policies resource action ip authToken now order s =
      some ((false, some eid, none), s', tr)) :
    (s'.entryAt eid).value.Remaining = 0 ∧ UsedAsFetched s s' := by
  have hloop := allowFetchLoop_no_consume policies resource action ip
    authToken now order [] s [] s hInv (UsedAsFetched_refl s)
  unfold allowWithOrder at h
  rcases hout : allowFetchLoop policies resource action ip authToken now
    order [] s [] with ⟨e, s₁, tr₁⟩ | ⟨eid₁, s₁, tr₁⟩ | ⟨quotas, s₁, tr₁⟩
  · rw [hout] at h
    simp at h
  · rw [hout] at h
    rw [hout] at hloop
    simp only [Option.some.injEq, Prod.mk.injEq] at h
    obtain ⟨⟨_, h2, _⟩, h4, _⟩ := h
    obtain rfl := h2
    obtain rfl := h4
    exact ⟨hloop.2.2, hloop.2.1⟩
  · rw [hout] at h
    simp only [] at h
    rcases hc : consumeLoop quotas allowOrder none s₁ with _ | ⟨best, s₂⟩ <;>
      rw [hc] at h <;> simp at h

/-- Witness for C1: on a fresh store, a policy whose total limit has
`MaxRequests = 0` is denied on the first fetch; the reported quota has
`Remaining = 0` and the resulting store has consumed nothing. -/
theorem C1_deny_consumes_nothing_witness :
    (c1DenyStore.entryAt 0).value.Remaining = 0 ∧
    UsedAsFetched c1Store0 c1DenyStore :=
  @C1_deny_consumes_nothing c1Policies "r" "a" "1.2.3.4" "tok" 0
    [LimitPerTotal] c1Store0 (by decide) 0 c1DenyStore [LimitPerTotal]
    (by decide)

/-! ## Claim C3: the allow path consumes once and reports the minimum -/

theorem consumeAt_entryAt_self (s : ExpirableStore) (eid : Nat)
    (h : eid < s.heap.length) :
    (s.consumeAt eid).entryAt eid =
      { s.entryAt eid with value := (s.entryAt eid).value.Consume } :=
  entryAt_heapSet_self s eid _ h

theorem consumeAt_entryAt_ne (s : ExpirableStore) (eid v : Nat)
    (h : v ≠ eid) : (s.consumeAt eid).entryAt v = s.entryAt v :=
  entryAt_heapSet_ne s eid v _ h

theorem consumeAt_heap_length (s : ExpirableStore) (eid : Nat) :
    (s.consumeAt eid).heap.length = s.heap.length := by
  simp [ExpirableStore.consumeAt, ExpirableStore.heapSet]

theorem consumeLoop_nil (quotas : List (String × Nat)) (best : Option Nat)
    (s : ExpirableStore) : consumeLoop quotas [] best s = some (best, s) :=
  rfl

theorem consumeLoop_cons_first {quotas : List (String × Nat)} {per : String}
    {rest : List String} {s : ExpirableStore} {eid : Nat}
    (h : alookup quotas per = some eid) :
    consumeLoop quotas (per :: rest) none s =
      consumeLoop quotas rest (some eid) (s.consumeAt eid) := by
  simp only [consumeLoop, h]

theorem consumeLoop_cons_better {quotas : List (String × Nat)} {per : String}
    {rest : List String} {s : ExpirableStore} {eid bid : Nat}
    (h : alookup quotas per = some eid)
    (hlt : ((s.consumeAt eid).entryAt eid).value.Remaining <
      ((s.consumeAt eid).entryAt bid).value.Remaining) :
    consumeLoop quotas (per :: rest) (some bid) s =
      consumeLoop quotas rest (some eid) (s.consumeAt eid) := by
  simp only [consumeLoop, h]
  rw [if_pos hlt]

theorem consumeLoop_cons_keep {quotas : List (String × Nat)} {per : String}
    {rest : List String} {s : ExpirableStore} {eid bid : Nat}
    (h : alookup quotas per = some eid)
    (hge : ¬ ((s.consumeAt eid).entryAt eid).value.Remaining <
      ((s.consumeAt eid).entryAt bid).value.Remaining) :
    consumeLoop quotas (per :: rest) (some bid) s =
      consumeLoop quotas rest (some bid) (s.consumeAt eid) := by
  simp only [consumeLoop, h]
  rw [if_neg hge]

/-- The consume loop of `Allow` over the fixed `allowOrder` list: it
consumes all three dimensions' quotas in order (the final store is the
threefold consume) and reports the quota with the smallest post-consume
remaining, ties going to the earliest dimension. -/
theorem consumeLoop_allowOrder (quotas : List (String × Nat))
    (s : ExpirableStore) (eT eI eA : Nat)
    (hT : alookup quotas LimitPerTotal = some eT)
    (hI : alookup quotas LimitPerIPAddress = some eI)
    (hA : alookup quotas LimitPerAuthToken = some eA)
    (hTA : eT ≠ eA) (hIA : eI ≠ eA) :
    ∃ bid,
      consumeLoop quotas allowOrder none s =
        some (some bid, ((s.consumeAt eT).consumeAt eI).consumeAt eA) ∧
      ((bid = eT ∧
          ((((s.consumeAt eT).consumeAt eI).consumeAt eA).entryAt
            eT).value.Remaining ≤
          ((((s.consumeAt eT).consumeAt eI).consumeAt eA).entryAt
            eI).value.Remaining ∧
          ((((s.consumeAt eT).consumeAt eI).consumeAt eA).entryAt
            eT).value.Remaining ≤
          ((((s.consumeAt eT).consumeAt eI).consumeAt eA).entryAt
            eA).value.Remaining) ∨
       (bid = eI ∧
          ((((s.consumeAt eT).consumeAt eI).consumeAt eA).entryAt
            eI).value.Remaining <
          ((((s.consumeAt eT).consumeAt eI).consumeAt eA).entryAt
            eT).value.Remaining ∧
          ((((s.consumeAt eT).consumeAt eI).consumeAt eA).entryAt
            eI).value.Remaining ≤
          ((((s.consumeAt eT).consumeAt eI).consumeAt eA).entryAt
            eA).value.Remaining) ∨
       (bid = eA ∧
          ((((s.consumeAt eT).consumeAt eI).consumeAt eA).entryAt
            eA).value.Remaining <
          ((((s.consumeAt eT).consumeAt eI).consumeAt eA).entryAt
            eT).value.Remaining ∧
          ((((s.consumeAt eT).consumeAt eI).consumeAt eA).entryAt
            eA).value.Remaining <
          ((((s.consumeAt eT).consumeAt eI).consumeAt eA).entryAt
            eI).value.Remaining)) := by
  have h3I : (((s.consumeAt eT).consumeAt eI).consumeAt eA).entryAt eI =
      ((s.consumeAt eT).consumeAt eI).entryAt eI :=
    consumeAt_entryAt_ne _ eA eI hIA
  have h3T : (((s.consumeAt eT).consumeAt eI).consumeAt eA).entryAt eT =
      ((s.consumeAt eT).consumeAt eI).entryAt eT :=
    consumeAt_entryAt_ne _ eA eT hTA
  by_cases hc1 : ((((s.consumeAt eT).consumeAt eI).consumeAt eA).entryAt
      eI).value.Remaining <
      ((((s.consumeAt eT).consumeAt eI).consumeAt eA).entryAt
      eT).value.Remaining
  · have hc1' : (((s.consumeAt eT).consumeAt eI).entryAt
        eI).value.Remaining <
        (((s.consumeAt eT).consumeAt eI).entryAt eT).value.Remaining := by
      rw [h3I, h3T] at hc1
      exact hc1
    by_cases hc2 : ((((s.consumeAt eT).consumeAt eI).consumeAt eA).entryAt
        eA).value.Remaining <
        ((((s.consumeAt eT).consumeAt eI).consumeAt eA).entryAt
        eI).value.Remaining
    · refine ⟨eA, ?_, Or.inr (Or.inr ⟨rfl, lt_trans hc2 hc1, hc2⟩)⟩
      simp only [allowOrder]
      rw [consumeLoop_cons_first hT, consumeLoop_cons_better hI hc1',
        consumeLoop_cons_better hA hc2, consumeLoop_nil]
    · refine ⟨eI, ?_, Or.inr (Or.inl ⟨rfl, hc1, not_lt.mp hc2⟩)⟩
      simp only [allowOrder]
      rw [consumeLoop_cons_first hT, consumeLoop_cons_better hI hc1',
        consumeLoop_cons_keep hA hc2, consumeLoop_nil]
  · have hc1' : ¬ (((s.consumeAt eT).consumeAt eI).entryAt
        eI).value.Remaining <
        (((s.consumeAt eT).consumeAt eI).entryAt eT).value.Remaining := by
      rw [h3I, h3T] at hc1
      exact hc1
    by_cases hc2 : ((((s.consumeAt eT).consumeAt eI).consumeAt eA).entryAt
        eA).value.Remaining <
        ((((s.consumeAt eT).consumeAt eI).consumeAt eA).entryAt
        eT).value.Remaining
    · refine ⟨eA, ?_,
        Or.inr (Or.inr ⟨rfl, hc2, lt_of_lt_of_le hc2 (not_lt.mp hc1)⟩)⟩
      simp only [allowOrder]
      rw [consumeLoop_cons_first hT, consumeLoop_cons_keep hI hc1',
        consumeLoop_cons_better hA hc2, consumeLoop_nil]
    · refine ⟨eT, ?_, Or.inl ⟨rfl, not_lt.mp hc1, not_lt.mp hc2⟩⟩
      simp only [allowOrder]
      rw [consumeLoop_cons_first hT, consumeLoop_cons_keep hI hc1',
        consumeLoop_cons_keep hA hc2, consumeLoop_nil]

/-- `Allow`'s return value when the fetch loop completes and the consume
loop succeeds. -/
theorem allowWithOrder_completed {policies :
      List (String × List (String × Limit))}
    {resource action ip authToken : String} {now : Int}
    {order : List String} {s : ExpirableStore}
    {quotas : List (String × Nat)} {s₁ s₂ : ExpirableStore}
    {tr : List String} {best : Option Nat}
    (hloop : allowFetchLoop policies resource action ip authToken now order
      [] s [] = .completed quotas s₁ tr)
    (hc : consumeLoop quotas allowOrder none s₁ = some (best, s₂)) :
    allowWithOrder policies resource action ip authToken now order s =
      some ((true, best, none), s₂, tr) := by
  unfold allowWithOrder
  simp only [hloop, hc]

/-- C3: when `Allow`'s fetch loop completes (so the call is allowed), each
dimension's fetched quota is consumed exactly once — its used count goes
up by exactly 1 in uint64 arithmetic and every other heap entry and the
items map are untouched — and the quota reported to the caller is the one
with the smallest post-consume `Remaining()` among the three consumed
quotas, ties broken by the dimension order total < ip < auth_token. -/
theorem C3_allowed_consumes_once_reports_min
    (policies : List (String × List (String × Limit)))
    (resource action ip authToken : String) (now : Int)
    (order : List String) (s : ExpirableStore)
    (quotas : List (String × Nat)) (s₁ : ExpirableStore) (tr : List String)
    (eT eI eA : Nat)
    (hloop : allowFetchLoop policies resource action ip authToken now order
      [] s [] = .completed quotas s₁ tr)
    (hT : alookup quotas LimitPerTotal = some eT)
    (hI : alookup quotas LimitPerIPAddress = some eI)
    (hA : alookup quotas LimitPerAuthToken = some eA)
    (hTI : eT ≠ eI) (hTA : eT ≠ eA) (hIA : eI ≠ eA)
    (hbT : eT < s₁.heap.length) (hbI : eI < s₁.heap.length)
    (hbA : eA < s₁.heap.length) :
    ∃ bid,
      allowWithOrder policies resource action ip authToken now order s =
        some ((true, some bid, none),
          ((s₁.consumeAt eT).consumeAt eI).consumeAt eA, tr) ∧
      ((((s₁.consumeAt eT).consumeAt eI).consumeAt eA).entryAt
          eT).value.used = ((s₁.entryAt eT).value.used + 1) % U64 ∧
      ((((s₁.consumeAt eT).consumeAt eI).consumeAt eA).entryAt
          eI).value.used = ((s₁.entryAt eI).value.used + 1) % U64 ∧
      ((((s₁.consumeAt eT).consumeAt eI).consumeAt eA).entryAt
          eA).value.used = ((s₁.entryAt eA).value.used + 1) % U64 ∧
      (∀ v, v ≠ eT → v ≠ eI → v ≠ eA →
        (((s₁.consumeAt eT).consumeAt eI).consumeAt eA).entryAt v =
          s₁.entryAt v) ∧
      (((s₁.consumeAt eT).consumeAt eI).consumeAt eA).items = s₁.items ∧
      ((bid = eT ∧
          ((((s₁.consumeAt eT).consumeAt eI).consumeAt eA).entryAt
            eT).value.Remaining ≤
          ((((s₁.consumeAt eT).consumeAt eI).consumeAt eA).entryAt
            eI).value.Remaining ∧
          ((((s₁.consumeAt eT).consumeAt eI).consumeAt eA).entryAt
            eT).value.Remaining ≤
          ((((s₁.consumeAt eT).consumeAt eI).consumeAt eA).entryAt
            eA).value.Remaining) ∨
       (bid = eI ∧
          ((((s₁.consumeAt eT).consumeAt eI).consumeAt eA).entryAt
            eI).value.Remaining <
          ((((s₁.consumeAt eT).consumeAt eI).consumeAt eA).entryAt
            eT).value.Remaining ∧
          ((((s₁.consumeAt eT).consumeAt eI).consumeAt eA).entryAt
            eI).value.Remaining ≤
          ((((s₁.consumeAt eT).consumeAt eI).consumeAt eA).entryAt
            eA).value.Remaining) ∨
       (bid = eA ∧
          ((((s₁.consumeAt eT).consumeAt eI).consumeAt eA).entryAt
            eA).value.Remaining <
          ((((s₁.consumeAt eT).consumeAt eI).consumeAt eA).entryAt
            eT).value.Remaining ∧
          ((((s₁.consumeAt eT).consumeAt eI).consumeAt eA).entryAt
            eA).value.Remaining <
          ((((s₁.consumeAt eT).consumeAt eI).consumeAt eA).entryAt
            eI).value.Remaining)) := by
  obtain ⟨bid, hc, hdisj⟩ :=
    consumeLoop_allowOrder quotas s₁ eT eI eA hT hI hA hTA hIA
  refine ⟨bid, allowWithOrder_completed hloop hc, ?_, ?_, ?_, ?_, rfl,
    hdisj⟩
  · rw [consumeAt_entryAt_ne _ eA eT hTA, consumeAt_entryAt_ne _ eI eT hTI,
      consumeAt_entryAt_self s₁ eT hbT]
    simp [Quota.Consume]
  · rw [consumeAt_entryAt_ne _ eA eI hIA,
      consumeAt_entryAt_self (s₁.consumeAt eT) eI
        (by rw [consumeAt_heap_length]; exact hbI),
      consumeAt_entryAt_ne s₁ eT eI (Ne.symm hTI)]
    simp [Quota.Consume]
  · rw [consumeAt_entryAt_self ((s₁.consumeAt eT).consumeAt eI) eA
        (by rw [consumeAt_heap_length, consumeAt_heap_length]; exact hbA),
      consumeAt_entryAt_ne (s₁.consumeAt eT) eI eA (Ne.symm hIA),
      consumeAt_entryAt_ne s₁ eT eA (Ne.symm hTA)]
    simp [Quota.Consume]
  · intro v hvT hvI hvA
    rw [consumeAt_entryAt_ne _ eA v hvA, consumeAt_entryAt_ne _ eI v hvI,
      consumeAt_entryAt_ne _ eT v hvT]

/-- The policy map for the C3 witness: all three dimensions Limited, with
distinct maxima so the minimum is unique. -/
def c3Policies : List (String × List (String × Limit)) :=
  [(getKey ["r", "a"],
    [(LimitPerTotal, ⟨"r", "a", LimitPerTotal, false, 100, 60000000000⟩),
     (LimitPerIPAddress,
       ⟨"r", "a", LimitPerIPAddress, false, 50, 60000000000⟩),
     (LimitPerAuthToken,
       ⟨"r", "a", LimitPerAuthToken, false, 7, 60000000000⟩)])]

/-- The completed fetch-loop outcome of the C3 witness run. -/
def c3Out : LoopOut :=
  allowFetchLoop c3Policies "r" "a" "1.2.3.4" "tok" 0 allowOrder []
    c1Store0 []

/-- The per-dimension quota pointers of the C3 witness run. -/
def c3Quotas : List (String × Nat) :=
  match c3Out with
  | .completed q _ _ => q
  | _ => []

/-- The post-fetch store of the C3 witness run. -/
def c3S1 : ExpirableStore :=
  match c3Out with
  | .completed _ st _ => st
  | _ => default

/-- The fetch trace of the C3 witness run. -/
def c3Tr : List String :=
  match c3Out with
  | .completed _ _ t => t
  | _ => []

/-- Witness for C3: a concrete allowed call on a fresh store fetches the
three dimensions into entries 0, 1, 2 and consumes them; the consume
outcome is exactly the threefold consume of the post-fetch store. -/
theorem C3_allowed_consumes_once_reports_min_witness :
    (allowFetchLoop c3Policies "r" "a" "1.2.3.4" "tok" 0 allowOrder []
        c1Store0 [] = .completed c3Quotas c3S1 c3Tr ∧
      alookup c3Quotas LimitPerTotal = some 0 ∧
      alookup c3Quotas LimitPerIPAddress = some 1 ∧
      alookup c3Quotas LimitPerAuthToken = some 2) ∧
    ∃ bid,
      allowWithOrder c3Policies "r" "a" "1.2.3.4" "tok" 0 allowOrder
          c1Store0 =
        some ((true, some bid, none),
          ((c3S1.consumeAt 0).consumeAt 1).consumeAt 2, c3Tr) := by
  obtain ⟨bid, h1, -⟩ := C3_allowed_consumes_once_reports_min c3Policies
    "r" "a" "1.2.3.4" "tok" 0 allowOrder c1Store0 c3Quotas c3S1 c3Tr 0 1 2
    (by decide) (by decide) (by decide) (by decide) (by decide) (by decide)
    (by decide) (by decide) (by decide) (by decide)
  exact ⟨⟨by decide, by decide, by decide, by decide⟩, bid, h1⟩

/-! ## Claim C7: the fetch order of `Allow`

`Allow` fetches by ranging over the Go map `keys`, whose iteration order
is unspecified, so the fetch order is the map's iteration order, not a
fixed one. -/

/-- The fetch loop visits dimensions in exactly the iteration order it is
given: its trace extends the accumulator by successive takes of the
remaining order, the whole of it on completion; a denial's reported quota
is exhausted. -/
theorem allowFetchLoop_trace
    (policies : List (String × List (String × Limit)))
    (resource action ip authToken : String) (now : Int) :
    ∀ (order : List String) (quotas : List (String × Nat))
      (s : ExpirableStore) (tr : List String),
      (match allowFetchLoop policies resource action ip authToken now order
          quotas s tr with
       | .failed _ _ tr' => ∃ k, tr' = tr ++ List.take k order
       | .denied eid s' tr' => (∃ k, tr' = tr ++ List.take k order) ∧
           (s'.entryAt eid).value.Remaining = 0
       | .completed _ _ tr' => tr' = tr ++ order) := by
  intro order
  induction order with
  | nil =>
    intro quotas s tr
    simp [allowFetchLoop]
  | cons per rest ih =>
    intro quotas s tr
    rcases hpol : alookup policies (getKey [resource, action]) with _ | pol
    · rw [allowFetchLoop_polNone hpol]
      exact ⟨0, by simp⟩
    rcases hlim : alookup pol per with _ | limit
    · rw [allowFetchLoop_limNone hpol hlim]
      exact ⟨0, by simp⟩
    rcases hr : s.fetch now (allowId ip authToken per) limit with ⟨r1, s₂⟩
    rcases r1 with e | eid
    · rw [allowFetchLoop_fetchErr hpol hlim hr]
      exact ⟨1, by simp⟩
    · by_cases hrem : (s₂.entryAt eid).value.Remaining = 0
      · rw [allowFetchLoop_denied hpol hlim hr hrem]
        exact ⟨⟨1, by simp⟩, hrem⟩
      · rw [allowFetchLoop_step hpol hlim hr hrem]
        have h := ih (ainsert quotas per eid) s₂ (tr ++ [per])
        rcases hout : allowFetchLoop policies resource action ip authToken
            now rest (ainsert quotas per eid) s₂ (tr ++ [per]) with
          ⟨e', s', tr'⟩ | ⟨eid', s', tr'⟩ | ⟨q', s', tr'⟩ <;>
          rw [hout] at h
        · obtain ⟨k, hk⟩ := h
          exact ⟨k + 1, by simp [hk, List.take_succ_cons]⟩
        · obtain ⟨⟨k, hk⟩, hrm⟩ := h
          exact ⟨⟨k + 1, by simp [hk, List.take_succ_cons]⟩, hrm⟩
        · simp [h]

/-- C7 (amended): within a single `Allow` call the per-dimension fetches
are performed in the iteration order of the `keys` map — the fetch trace
is always a prefix (a take) of that order, and is the whole order when the
call is allowed — and on denial the reported quota is the exhausted one at
the first exhausted dimension *of that iteration order*.  The order
itself is a Go map range order and is not the fixed list total, ip,
auth_token on every execution. -/
theorem C7_fetch_follows_map_order
    (policies : List (String × List (String × Limit)))
    (resource action ip authToken : String) (now : Int)
    (order : List String) (s : ExpirableStore) :
    (match allowFetchLoop policies resource action ip authToken now order
        [] s [] with
     | .failed _ _ tr => ∃ k, tr = List.take k order
     | .denied eid s' tr => (∃ k, tr = List.take k order) ∧
         (s'.entryAt eid).value.Remaining = 0
     | .completed _ _ tr => tr = order) := by
  have h := allowFetchLoop_trace policies resource action ip authToken now
    order [] s []
  rcases hout : allowFetchLoop policies resource action ip authToken now
    order [] s [] with ⟨e, s', tr⟩ | ⟨eid, s', tr⟩ | ⟨q, s', tr⟩ <;>
    rw [hout] at h <;> simpa using h

/-- The policy map of the C7 counterexample: total and ip-address both
allow a single request, auth-token five. -/
def c7Policies : List (String × List (String × Limit)) :=
  [(getKey ["r", "a"],
    [(LimitPerTotal, ⟨"r", "a", LimitPerTotal, false, 1, 60000000000⟩),
     (LimitPerIPAddress,
       ⟨"r", "a", LimitPerIPAddress, false, 1, 60000000000⟩),
     (LimitPerAuthToken,
       ⟨"r", "a", LimitPerAuthToken, false, 5, 60000000000⟩)])]

/-- The store after one allowed call under `c7Policies`: the total and
ip-address quotas are now both exhausted. -/
def c7Store : ExpirableStore :=
  match allowWithOrder c7Policies "r" "a" "1.2.3.4" "tok" 0 allowOrder
      c1Store0 with
  | some (_, st, _) => st
  | none => default

/-- Counterexample to C7 as stated: with both the total and the ip-address
quotas exhausted, two iteration orders of the `keys` map — both
permutations of the three dimensions, as map ranging guarantees — make the
same denied `Allow` call fetch in different orders and report *different*
quotas (entry 0, the total quota, versus entry 1, the ip-address quota):
the fetch order and the reported quota are not fixed. -/
theorem C7_order_dependent_counterexample :
    [LimitPerIPAddress, LimitPerTotal, LimitPerAuthToken].Perm allowOrder ∧
    (allowWithOrder c7Policies "r" "a" "1.2.3.4" "tok" 1 allowOrder
        c7Store).map (fun x => (x.1.2.1, x.2.2)) =
      some (some 0, [LimitPerTotal]) ∧
    (allowWithOrder c7Policies "r" "a" "1.2.3.4" "tok" 1
        [LimitPerIPAddress, LimitPerTotal, LimitPerAuthToken]
        c7Store).map (fun x => (x.1.2.1, x.2.2)) =
      some (some 1, [LimitPerIPAddress]) := by
  decide

/-! ## Claim C8: Unlimited limits are not skipped by the source -/

/-- The three all-Unlimited limits of the C8 run, each valid. -/
def c8Limits : List (String × Limit) :=
  [(LimitPerTotal, ⟨"r", "a", LimitPerTotal, true, 0, 0⟩),
   (LimitPerIPAddress, ⟨"r", "a", LimitPerIPAddress, true, 0, 0⟩),
   (LimitPerAuthToken, ⟨"r", "a", LimitPerAuthToken, true, 0, 0⟩)]

/-- The all-Unlimited policy map of the C8 run. -/
def c8Policies : List (String × List (String × Limit)) :=
  [(getKey ["r", "a"], c8Limits)]

/-- C8 fails against the source: `Allow` in src/limiter.go has no
Unlimited skip — it fetches a quota for every dimension regardless of the
limit's Unlimited tag.  On a policy whose three limits are all Unlimited
(and valid), the call does not return `(true, nil, nil)` without touching
the store: the very first fetched Unlimited quota has
`Remaining() = max(0, 0 − 0) = 0`, so the call stores an entry for it and
returns a denial carrying that quota. -/
theorem C8_unlimited_not_skipped :
    (∀ p ∈ c8Limits, p.2.unlimited = true ∧ p.2.IsValid = true) ∧
    (allowWithOrder c8Policies "r" "a" "1.2.3.4" "tok" 0 allowOrder
        c1Store0).map (fun x => (x.1, x.2.2)) =
      some ((false, some 0, none), [LimitPerTotal]) ∧
    (allowWithOrder c8Policies "r" "a" "1.2.3.4" "tok" 0 allowOrder
        c1Store0).map (fun x => x.2.1.items.length) = some 1 := by
  decide

end GoRate
